import Mathlib

/-!
Verification development for the HoneyScan scan-orchestration core.

The Python sources are shallowly embedded: Python strings are `List Char`
(Lean `String` functions do not reduce well inside the kernel), Python
scalar values are `PyVal`, dictionaries are association lists.  Each
definition carries a comment naming the Python function it embeds.
-/

namespace HoneyScan

/-- Shorthand turning a Lean string literal into the `List Char`
representation used for embedded Python strings. -/
def pys (s : String) : List Char := s.data

/-- Python scalar value as it occurs in the embedded entries: either an
integer or a string.  Absent dictionary keys are represented by `Option`
at the use sites. -/
inductive PyVal where
  | pInt (n : Int)
  | pStr (s : List Char)
deriving DecidableEq, Repr

/-- Embeds Python `str(v)` for the values of `PyVal`. -/
def pyStr : PyVal → List Char
  | .pInt n => (toString n).data
  | .pStr s => s

/-- Embeds Python truthiness (`if v:`) for the values of `PyVal`:
`0` and the empty string are falsy. -/
def pyTruthy : PyVal → Bool
  | .pInt n => n ≠ 0
  | .pStr s => s ≠ []

/-- Characters removed by Python `str.strip()` with no argument. -/
def isPySpace (c : Char) : Bool :=
  c = ' ' ∨ c = '\t' ∨ c = '\n' ∨ c = '\x0d' ∨ c = '\x0b' ∨ c = '\x0c'

/-- Embeds Python `str.strip()`: drops leading and trailing whitespace. -/
def pyStrip (s : List Char) : List Char :=
  ((s.dropWhile isPySpace).reverse.dropWhile isPySpace).reverse

/-- Embeds Python `str.lower()` (ASCII range, which is all the sources use). -/
def pyLower (s : List Char) : List Char := s.map Char.toLower

/-- A Python dictionary with string keys, embedded as an association list.
All concrete dictionaries in this development have pairwise distinct keys,
so first-match lookup coincides with Python dict lookup. -/
abbrev PyDict := List (String × PyVal)

/-- Embeds Python `d.get(k)` (returns `none` when the key is absent). -/
def dget (d : PyDict) (k : String) : Option PyVal :=
  (d.find? (fun p => p.1 = k)).map (fun p => p.2)

/-- Embeds Python `d.get(k, default)`. -/
def dgetD (d : PyDict) (k : String) (v : PyVal) : PyVal :=
  (dget d k).getD v

/-!
Section: Severity classifier (src/core/severity.py)

The regular expressions of `SEVERITY_KEYWORDS` are embedded as explicit
syntax trees.  Every pattern in the source uses only literal characters,
the classes `\d` and `.`, the zero-width assertion `\b`, alternation,
grouping and bounded repetition, so the syntax below is complete for them.
-/

/-- Regular-expression syntax appearing in the severity patterns:
epsilon, a literal character, `.` (any char except newline), `\d`,
the word boundary `\b`, alternation and concatenation. -/
inductive Re where
  | eps
  | chr (c : Char)
  | anyc
  | digit
  | wordB
  | alt (a b : Re)
  | seq (a b : Re)
deriving DecidableEq, Repr

/-- Literal word: concatenation of its characters. -/
def reLit : List Char → Re
  | [] => .eps
  | c :: cs => .seq (.chr c) (reLit cs)

/-- Concatenation of a list of regexes. -/
def reSeqs : List Re → Re
  | [] => .eps
  | [r] => r
  | r :: rs => .seq r (reSeqs rs)

/-- Alternation of a non-empty list of regexes (a regex group `(a|b|c)`). -/
def reAlts : List Re → Re
  | [] => .eps
  | [r] => r
  | r :: rs => .alt r (reAlts rs)

/-- Exactly `n` copies of `r`, the regex `r{n}`. -/
def reExact : Nat → Re → Re
  | 0, _ => .eps
  | n + 1, r => .seq r (reExact n r)

/-- At most `n` copies of `r`, nested as "stop here or consume one more"
so that the backtracking matcher explores linearly many states. -/
def reUpTo : Nat → Re → Re
  | 0, _ => .eps
  | n + 1, r => .alt .eps (.seq r (reUpTo n r))

/-- Bounded repetition `r{m,n}`: `m` mandatory copies then up to `n - m`
further ones. -/
def reRep (m n : Nat) (r : Re) : Re :=
  .seq (reExact m r) (reUpTo (n - m) r)

/-- Word characters for the `\b` assertion of Python `re`. -/
def isWordChar (c : Char) : Bool := c.isAlphanum || c = '_'

/-- Backtracking matcher.  A state is the previously consumed character
(needed by `\b`) together with the remaining input; `mat` returns every
state reachable by matching `r` once.  Character comparison is through
`Char.toLower` on both sides, which embeds the `re.IGNORECASE` flag the
classifier always passes. -/
def Re.mat : Re → Option Char → List Char → List (Option Char × List Char)
  | .eps, p, s => [(p, s)]
  | .chr _, _, [] => []
  | .chr c, _, x :: xs => if x.toLower = c.toLower then [(some x, xs)] else []
  | .anyc, _, [] => []
  | .anyc, _, x :: xs => if x = '\n' then [] else [(some x, xs)]
  | .digit, _, [] => []
  | .digit, _, x :: xs => if x.isDigit then [(some x, xs)] else []
  | .wordB, p, s =>
      let lw := match p with
        | none => false
        | some c => isWordChar c
      let rw := match s with
        | [] => false
        | c :: _ => isWordChar c
      if lw ≠ rw then [(p, s)] else []
  | .alt a b, p, s => a.mat p s ++ b.mat p s
  | .seq a b, p, s => (a.mat p s).flatMap (fun st => b.mat st.1 st.2)

/-- Helper for `reSearch`: try a match starting at every suffix, keeping
the character to the left of the current start for `\b`. -/
def reSearchAux (r : Re) : Option Char → List Char → Bool
  | p, [] => !(r.mat p []).isEmpty
  | p, c :: rest => !(r.mat p (c :: rest)).isEmpty || reSearchAux r (some c) rest

/-- Embeds `re.search(pattern, text, re.IGNORECASE) is not None`. -/
def reSearch (r : Re) (s : List Char) : Bool := reSearchAux r none s

/-- Leading `\b` shared by every pattern. -/
def wb : Re := Re.wordB

/-- Source pattern `\bcve-\d{4}-\d{4,7}\b.{0,32}\b(9\.\d|10\.0|critical|exploit|remote code execution|rce|unauthenticated)\b` -/
def reCritical1 : Re :=
  reSeqs [wb, reLit (pys "cve-"), reExact 4 .digit, .chr '-', reRep 4 7 .digit, wb,
    reRep 0 32 .anyc, wb,
    reAlts [reSeqs [reLit (pys "9."), .digit], reLit (pys "10.0"),
      reLit (pys "critical"), reLit (pys "exploit"),
      reLit (pys "remote code execution"), reLit (pys "rce"),
      reLit (pys "unauthenticated")], wb]

/-- Source pattern `\bexploit\b` -/
def reExploit : Re := reSeqs [wb, reLit (pys "exploit"), wb]

/-- Source pattern `\bremote code execution\b` -/
def reRemoteCode : Re := reSeqs [wb, reLit (pys "remote code execution"), wb]

/-- Source pattern `\bprivilege escalation\b` -/
def rePrivEsc : Re := reSeqs [wb, reLit (pys "privilege escalation"), wb]

/-- Source pattern `\boutdated\b.{0,32}\bexploit\b` -/
def reOutdatedExploit : Re :=
  reSeqs [wb, reLit (pys "outdated"), wb, reRep 0 32 .anyc, wb, reLit (pys "exploit"), wb]

/-- Source pattern `\bcve-\d{4}-\d{4,7}\b` -/
def reCVE : Re :=
  reSeqs [wb, reLit (pys "cve-"), reExact 4 .digit, .chr '-', reRep 4 7 .digit, wb]

/-- A plain `\bword\b` pattern. -/
def reWord (s : String) : Re := reSeqs [wb, reLit s.data, wb]

/-- Source pattern `\bvulnerab(le|ility|ilities)\b` -/
def reVulnerab : Re :=
  reSeqs [wb, reLit (pys "vulnerab"),
    reAlts [reLit (pys "le"), reLit (pys "ility"), reLit (pys "ilities")], wb]

/-- Embeds `SEVERITY_LEVELS` of src/core/severity.py. -/
def SEVERITY_LEVELS : List String := ["critical", "high", "medium", "low", "info"]

/-- A keyword table: per-level ordered pattern lists, as an association
list mirroring the Python dict. -/
abbrev KwTable := List (String × List Re)

/-- Embeds the built-in `SEVERITY_KEYWORDS` dict of src/core/severity.py. -/
def SEVERITY_KEYWORDS : KwTable :=
  [("critical",
     [reCritical1, reExploit, reRemoteCode, rePrivEsc, reOutdatedExploit]),
   ("high",
     [reCVE, reExploit, reWord "anonymous", reWord "backdoor",
      reSeqs [wb, reLit (pys "default credentials"), wb],
      reWord "unauthenticated", reWord "deserialization", reWord "unsafe",
      reWord "outdated", reSeqs [wb, reLit (pys "password reuse"), wb]]),
   ("medium",
     [reVulnerab, reWord "insecure", reWord "open", reWord "deprecated",
      reWord "misconfiguration"]),
   ("low",
     [reWord "filtered", reSeqs [wb, reLit (pys "open|filtered"), wb],
      reSeqs [wb, reLit (pys "no-response"), wb], reWord "timeout",
      reWord "info", reWord "potential", reWord "waf", reWord "firewall"])]

/-- Lookup in a keyword table (Python `keywords.get(sev, default)`). -/
def kwGet (kw : KwTable) (sev : String) : Option (List Re) :=
  (kw.find? (fun p => p.1 = sev)).map (fun p => p.2)

/-- Text extraction of `classify_severity`: the truthy values of the fixed
field list, lowercased and space-joined. -/
def sevText (entry : PyDict) : List Char :=
  let data := ["script_output", "output", "msg", "message", "description",
    "reason", "state", "detail"].filterMap (fun k =>
      match dget entry k with
      | some v => if pyTruthy v then some (pyLower (pyStr v)) else none
      | none => none)
  (List.intersperse (pys " ") data).flatten

/-- The keyword table actually consulted after `custom_keywords` handling:
`keywords = SEVERITY_KEYWORDS.copy()` then, per custom level, add an empty
list for an unknown level and `extend` the level list. -/
def kwLocal (glob custom : KwTable) : KwTable :=
  custom.foldl (fun acc p =>
    if (acc.find? (fun q => q.1 = p.1)).isSome then
      acc.map (fun q => if q.1 = p.1 then (q.1, q.2 ++ p.2) else q)
    else acc ++ [p]) glob

/-- The state of the global `SEVERITY_KEYWORDS` after the call: the copy
made by `classify_severity` is shallow, so `extend` on a level that exists
in the built-in dict mutates the built-in list; a level new to the dict
only lives in the copy and leaves the global unchanged. -/
def kwGlobalAfter (glob custom : KwTable) : KwTable :=
  custom.foldl (fun acc p =>
    if (acc.find? (fun q => q.1 = p.1)).isSome then
      acc.map (fun q => if q.1 = p.1 then (q.1, q.2 ++ p.2) else q)
    else acc) glob

/-- Inner loop of the pattern cascade: some pattern of the level list
matches the text (Python `keywords.get(severity, [])` and the first-match
walk return as soon as one pattern hits, which for the boolean outcome is
`List.any`). -/
def levelMatches (kw : KwTable) (sev : String) (text : List Char) : Bool :=
  ((kwGet kw sev).getD []).any (fun r => reSearch r text)

/-- Pattern-cascade of `classify_severity`: the first level of
`SEVERITY_LEVELS` one of whose patterns matches the text. -/
def firstLevelMatch (kw : KwTable) (text : List Char) : Option String :=
  SEVERITY_LEVELS.find? (fun sev => levelMatches kw sev text)

/-- State extraction of `classify_severity`:
`entry.get("state", "").lower()`. -/
def sevState (entry : PyDict) : List Char :=
  pyLower (pyStr (dgetD entry "state" (.pStr [])))

/-- The consulted table when `custom_keywords` may be absent. -/
def kwLocalOpt (glob : KwTable) : Option KwTable → KwTable
  | none => glob
  | some c => kwLocal glob c

/-- The global table after the call when `custom_keywords` may be absent. -/
def kwGlobalAfterOpt (glob : KwTable) : Option KwTable → KwTable
  | none => glob
  | some c => kwGlobalAfter glob c

/-- Embeds `classify_severity(entry, custom_keywords)` of
src/core/severity.py.  The first component is the returned level; the
second is the state of the module-level `SEVERITY_KEYWORDS` after the
call (the source mutates it through the shallow copy, see `kwGlobalAfter`). -/
def classify_severity (glob : KwTable) (entry : PyDict) (custom : Option KwTable) :
    String × KwTable :=
  if entry.isEmpty then ("info", glob) else
  let text := sevText entry
  let state := sevState entry
  if state = pys "open|filtered" ∨ state = pys "filtered" then ("low", glob) else
  match firstLevelMatch (kwLocalOpt glob custom) text with
  | some sev => (sev, kwGlobalAfterOpt glob custom)
  | none =>
      (if state = pys "open" then "medium" else "info", kwGlobalAfterOpt glob custom)

/-- The scenario-S4 entry of the specification. -/
def entryS4 : PyDict :=
  [("script_output",
     .pStr (pys "Anonymous FTP login allowed. CVE-2021-12345 exploit.")),
   ("state", .pStr (pys "open"))]

/-- Entry whose only text is the word backdoor (a high-level keyword). -/
def entryBackdoor : PyDict := [("msg", .pStr (pys "backdoor"))]

/-- Entry with no matching keyword and no state. -/
def entryHello : PyDict := [("msg", .pStr (pys "hello"))]

/-- Entry and custom table used to exhibit the shallow-copy mutation. -/
def entryZ : PyDict := [("msg", .pStr (pys "zzzqx"))]

/-- Custom pattern list extending the built-in critical level. -/
def customZ : KwTable := [("critical", [reLit (pys "zzzqx")])]

/-- Helper: `List.find?` returns the element at the first index whose
predicate holds. -/
theorem find?_eq_some_of_first {α : Type _} (p : α → Bool) :
    ∀ (l : List α) (i : Nat) (hi : i < l.length),
      p (l.get ⟨i, hi⟩) = true →
      (∀ j (hj : j < i), p (l.get ⟨j, Nat.lt_trans hj hi⟩) = false) →
      l.find? p = some (l.get ⟨i, hi⟩) := by
  intro l
  induction l with
  | nil => intro i hi _ _; exact absurd hi (by simp)
  | cons a t ih =>
    intro i hi hp hprev
    cases i with
    | zero =>
      simpa using List.find?_cons_of_pos t (by simpa using hp)
    | succ n =>
      have ha : p a = false := hprev 0 (Nat.succ_pos n)
      rw [List.find?_cons_of_neg t (by simp [ha])]
      exact ih n (Nat.lt_of_succ_lt_succ hi) hp
        (fun j hj => hprev (j + 1) (Nat.succ_lt_succ hj))

/-- C5: `classify_severity` applies the state prelude (state filtered or
open-pipe-filtered returns low without consulting any pattern and without
touching the global table); otherwise the levels are scanned in the order
critical, high, medium, low, info and the first level with a matching
pattern wins; if no pattern matches the result is medium for state open
and info otherwise; and the concrete scenario-S4 entry classifies as
critical. -/
theorem classify_severity_cascade_spec :
    (∀ glob custom entry, entry ≠ ([] : PyDict) →
      (sevState entry = pys "filtered" ∨ sevState entry = pys "open|filtered") →
      classify_severity glob entry custom = ("low", glob))
    ∧ (∀ glob custom entry i (hi : i < SEVERITY_LEVELS.length),
        entry ≠ ([] : PyDict) →
        ¬(sevState entry = pys "open|filtered" ∨ sevState entry = pys "filtered") →
        levelMatches (kwLocalOpt glob custom) (SEVERITY_LEVELS.get ⟨i, hi⟩)
          (sevText entry) = true →
        (∀ j (hj : j < i),
          levelMatches (kwLocalOpt glob custom)
            (SEVERITY_LEVELS.get ⟨j, Nat.lt_trans hj hi⟩) (sevText entry) = false) →
        (classify_severity glob entry custom).1 = SEVERITY_LEVELS.get ⟨i, hi⟩)
    ∧ (∀ glob custom entry, entry ≠ ([] : PyDict) →
        ¬(sevState entry = pys "open|filtered" ∨ sevState entry = pys "filtered") →
        (∀ sev ∈ SEVERITY_LEVELS,
          levelMatches (kwLocalOpt glob custom) sev (sevText entry) = false) →
        (classify_severity glob entry custom).1 =
          (if sevState entry = pys "open" then "medium" else "info"))
    ∧ (classify_severity SEVERITY_KEYWORDS entryS4 none).1 = "critical" := by
  refine ⟨?_, ?_, ?_, ?_⟩
  · intro glob custom entry hne h
    simp only [classify_severity]
    rw [if_neg (by simp [hne]), if_pos (Or.symm h)]
  · intro glob custom entry i hi hne hst hmatch hprev
    simp only [classify_severity]
    rw [if_neg (by simp [hne]), if_neg hst]
    have h : firstLevelMatch (kwLocalOpt glob custom) (sevText entry) =
        some (SEVERITY_LEVELS.get ⟨i, hi⟩) := by
      rw [firstLevelMatch]
      exact find?_eq_some_of_first _ SEVERITY_LEVELS i hi hmatch hprev
    rw [h]
  · intro glob custom entry hne hst hnone
    simp only [classify_severity]
    rw [if_neg (by simp [hne]), if_neg hst]
    have : firstLevelMatch (kwLocalOpt glob custom) (sevText entry) = none := by
      rw [firstLevelMatch, List.find?_eq_none]
      intro x hx
      simp [hnone x hx]
    rw [this]
  · decide

/-- Closed witness for C5: the state prelude at a concrete filtered entry,
the cascade at a concrete high-level entry, and the info fallback at a
concrete unmatched entry. -/
theorem classify_severity_cascade_spec_witness :
    classify_severity SEVERITY_KEYWORDS [("state", .pStr (pys "filtered"))] none =
      ("low", SEVERITY_KEYWORDS)
    ∧ (classify_severity SEVERITY_KEYWORDS entryBackdoor none).1 = "high"
    ∧ (classify_severity SEVERITY_KEYWORDS entryHello none).1 = "info" := by
  refine ⟨?_, ?_, ?_⟩
  · exact classify_severity_cascade_spec.1 SEVERITY_KEYWORDS none _
      (by decide) (by decide)
  · have h := classify_severity_cascade_spec.2.1 SEVERITY_KEYWORDS none
      entryBackdoor 1 (by decide) (by decide) (by decide) (by decide)
      (fun j hj => by
        have hj0 : j = 0 := Nat.lt_one_iff.mp hj
        subst hj0
        show levelMatches (kwLocalOpt SEVERITY_KEYWORDS none) "critical"
          (sevText entryBackdoor) = false
        decide)
    simpa using h
  · have h := classify_severity_cascade_spec.2.2.1 SEVERITY_KEYWORDS none
      entryHello (by decide) (by decide) (by decide)
    simpa using h

/-- C6: the copy taken by `classify_severity` is shallow, so a call with
`custom_keywords` for a built-in level permanently extends the module
level list: the same entry that classifies as info against the pristine
built-ins classifies as critical, without custom keywords, after one call
that supplied a custom critical pattern. -/
theorem classify_severity_global_mutation :
    (classify_severity SEVERITY_KEYWORDS entryZ none).1 = "info"
    ∧ (classify_severity SEVERITY_KEYWORDS entryZ (some customZ)).1 = "critical"
    ∧ (classify_severity SEVERITY_KEYWORDS entryZ (some customZ)).2 ≠ SEVERITY_KEYWORDS
    ∧ (classify_severity
        ((classify_severity SEVERITY_KEYWORDS entryZ (some customZ)).2)
        entryZ none).1 = "critical" := by
  exact ⟨by decide, by decide, by decide, by decide⟩

/-!
Section: Nmap plugin merge rules (src/plugins/nmap.py)

`merge_entries` only ever receives entries produced by `nmap.parse`, which
always carry a `source` string; fields never consulted by the merge logic
(ip, fqdn, os, severity, the meta dicts, ...) are omitted from the record.
`format_script_output` composed with the two-element set join
`"\n\n".join(set([a, b]))` is abstracted as a parameter `fso`; every
theorem below holds for an arbitrary `fso`, in particular for the real
one. -/
structure NmapEntry where
  port : Option PyVal
  protocol : Option PyVal
  state : Option PyVal
  reason : Option PyVal
  service_name : Option PyVal
  product : Option PyVal
  version : Option PyVal
  extra : Option PyVal
  cpe : Option PyVal
  script_output : Option PyVal
  source : List Char
deriving DecidableEq, Repr

/-- Embeds `entry.get(k)` for the important-field names of an nmap entry. -/
def NmapEntry.get (e : NmapEntry) : String → Option PyVal
  | "port" => e.port
  | "protocol" => e.protocol
  | "state" => e.state
  | "reason" => e.reason
  | "service_name" => e.service_name
  | "product" => e.product
  | "version" => e.version
  | "extra" => e.extra
  | "cpe" => e.cpe
  | "script_output" => e.script_output
  | _ => none

/-- Embeds `get_important_fields()` of src/plugins/nmap.py. -/
def get_important_fields : List String :=
  ["port", "protocol", "state", "reason", "service_name", "product",
   "version", "extra", "cpe", "script_output"]

/-- Boolean membership of a string in a string list. -/
def memB (x : List Char) (l : List (List Char)) : Bool := l.any (fun s => x = s)

/-- The five sentinels of the emptiness filter in `merge_entries`
(`is_empty`), in source order. -/
def sentinels5 : List (List Char) := [pys "-", pys "", pys "null", pys "None", pys "0"]

/-- The four sentinels of the identical-field comparison in
`merge_entries` (note: no `"0"` here, unlike `is_empty`). -/
def sentinels4 : List (List Char) := [pys "-", pys "", pys "None", pys "null"]

/-- `str(entry.get(k, "-")).strip()` for an important field. -/
def importantStr (e : NmapEntry) (k : String) : List Char :=
  pyStrip (pyStr ((e.get k).getD (.pStr (pys "-"))))

/-- Embeds the local `is_empty` of `merge_entries`: every important field
is a sentinel (five-sentinel list). -/
def nmapIsEmpty (e : NmapEntry) : Bool :=
  get_important_fields.all (fun k => memB (importantStr e k) sentinels5)

/-- Embeds the `identical` loop of `merge_entries`: a field passes when
both stripped values are sentinels (four-sentinel list) or when they are
equal; the loop returns false on the first failing field, which is the
same boolean as the conjunction. -/
def identicalImportant (entry existing : NmapEntry) : Bool :=
  get_important_fields.all (fun k =>
    (memB (importantStr entry k) sentinels4 && memB (importantStr existing k) sentinels4)
    || importantStr entry k = importantStr existing k)

/-- Embeds Python `s.split(sep)` for a one-character separator. -/
def pySplitOn (sep : Char) : List Char → List (List Char)
  | [] => [[]]
  | c :: cs =>
    match pySplitOn sep cs with
    | [] => [[]]
    | t :: ts => if c = sep then [] :: t :: ts else (c :: t) :: ts

/-- Embeds `merge_sources(a, b)` of src/plugins/nmap.py:
`"+".join(sorted(set(a.split("+")) | set(b.split("+"))))`.  `List.dedup`
realises the set (membership is all that survives the sort). -/
def merge_sources (a b : List Char) : List Char :=
  List.intercalate (pys "+")
    (List.insertionSort (· ≤ ·) ((pySplitOn '+' a ++ pySplitOn '+' b).dedup))

/-- Keys of the `merged` dict: the base key is the triple of raw values
`(entry.get("port"), entry.get("protocol"), entry.get("service_name"))`
(fourth component `none`), the extended key additionally carries the
source string.  A Python 3-tuple never equals a 4-tuple, which the fourth
component reproduces. -/
abbrev MKey := Option PyVal × Option PyVal × Option PyVal × Option (List Char)

/-- The base key of an entry. -/
def baseKey (e : NmapEntry) : MKey := (e.port, e.protocol, e.service_name, none)

/-- Python dict assignment `m[k] = v`: replace in place when the key
exists, append otherwise. -/
def dictSet (m : List (MKey × NmapEntry)) (k : MKey) (v : NmapEntry) :
    List (MKey × NmapEntry) :=
  if (m.find? (fun p => p.1 = k)).isSome then
    m.map (fun p => if p.1 = k then (k, v) else p)
  else m ++ [(k, v)]

/-- One iteration of the inner loop of `merge_entries` on a non-empty
entry. -/
def mergeStep (fso : PyVal → PyVal → List Char) (m : List (MKey × NmapEntry))
    (entry : NmapEntry) : List (MKey × NmapEntry) :=
  let key := baseKey entry
  match m.find? (fun p => p.1 = key) with
  | some pe =>
    let existing := pe.2
    if identicalImportant entry existing then
      let ex1 := { existing with source := merge_sources existing.source entry.source }
      let ex2 :=
        match entry.script_output, existing.script_output with
        | some soNew, some soOld =>
          if soNew ≠ soOld then { ex1 with script_output := some (.pStr (fso soOld soNew)) }
          else ex1
        | _, _ => ex1
      dictSet m key ex2
    else
      dictSet m (entry.port, entry.protocol, entry.service_name, some entry.source) entry
  | none => dictSet m key entry

/-- Embeds `merge_entries(*entry_lists)` of src/plugins/nmap.py. -/
def merge_entries (fso : PyVal → PyVal → List Char) (lists : List (List NmapEntry)) :
    List NmapEntry :=
  (lists.foldl (fun m entries =>
    (entries.filter (fun e => !nmapIsEmpty e)).foldl (mergeStep fso) m) []).map
    (fun p => p.2)

/-- The specification reading of the merge condition, written from the
spec words: every important field matches exactly post-strip or both
values are sentinels, with the sentinel list of section 4.1 which
includes `"0"`.  Used to compare the spec against `identicalImportant`. -/
def mergeCondSpec (entry existing : NmapEntry) : Bool :=
  get_important_fields.all (fun k =>
    (memB (importantStr entry k) sentinels5 && memB (importantStr existing k) sentinels5)
    || importantStr entry k = importantStr existing k)

/-- A trivial instantiation of the script-output combiner, used in closed
statements whose truth does not depend on it. -/
def fso0 : PyVal → PyVal → List Char := fun _ _ => []

/-- Concrete nmap entry: open http on 80/tcp, version field `"0"`. -/
def entryA : NmapEntry :=
  { port := some (.pInt 80), protocol := some (.pStr (pys "tcp")),
    state := some (.pStr (pys "open")), reason := some (.pStr (pys "syn-ack")),
    service_name := some (.pStr (pys "http")), product := some (.pStr (pys "nginx")),
    version := some (.pStr (pys "0")), extra := some (.pStr (pys "-")),
    cpe := some (.pStr (pys "-")), script_output := some (.pStr (pys "-")),
    source := pys "ip_tcp" }

/-- Same key as `entryA`, version field `"-"` instead of `"0"`. -/
def entryB : NmapEntry :=
  { entryA with version := some (.pStr (pys "-")), source := pys "domain_tcp" }

/-- Identical to `entryA` on every important field, different source. -/
def entryC : NmapEntry := { entryA with source := pys "domain_tcp" }

/-- Computation helper: `merge_entries` on two singleton lists of
non-empty entries is the second merge step over the dict holding the
first entry. -/
theorem merge_entries_pair (fso : PyVal → PyVal → List Char) (e1 e2 : NmapEntry)
    (h1 : nmapIsEmpty e1 = false) (h2 : nmapIsEmpty e2 = false) :
    merge_entries fso [[e1], [e2]] =
      (mergeStep fso [(baseKey e1, e1)] e2).map (fun p => p.2) := by
  simp [merge_entries, h1, h2]
  have hstep : mergeStep fso [] e1 = [(baseKey e1, e1)] := by
    simp [mergeStep, dictSet, List.find?]
  rw [hstep]

/-- C1 counterexample: with the claimed five-sentinel merge rule the two
entries below (same key, versions `"0"` and `"-"`, all other important
fields equal) would merge, but `merge_entries` keeps both because the
identical-field comparison in the source omits `"0"` from its sentinel
list. -/
theorem merge_entries_sentinel_zero_counterexample :
    mergeCondSpec entryB entryA = true
    ∧ baseKey entryA = baseKey entryB
    ∧ nmapIsEmpty entryA = false
    ∧ nmapIsEmpty entryB = false
    ∧ identicalImportant entryB entryA = false
    ∧ merge_entries fso0 [[entryA], [entryB]] = [entryA, entryB] := by
  exact ⟨by decide, by decide, by decide, by decide, by decide, by decide⟩

/-- C1 (amended): entries are keyed by (port, protocol, service_name);
two same-key entries are merged iff every important field matches exactly
post-strip or both are sentinels drawn from the four-element list `"-"`,
`""`, `"None"`, `"null"` (the `"0"` sentinel applies only to the
emptiness pre-filter); the merged source is the sorted plus-join of the
union of the source tokens and does not depend on the input order; a
same-key entry with a disagreeing important field is retained under the
extended key rather than overwriting; distinct keys never interact. -/
theorem merge_entries_merge_rule :
    (∀ (fso : PyVal → PyVal → List Char) (e1 e2 : NmapEntry),
      nmapIsEmpty e1 = false → nmapIsEmpty e2 = false →
      baseKey e1 = baseKey e2 → identicalImportant e2 e1 = true →
      (merge_entries fso [[e1], [e2]]).map (fun e => e.source) =
        [merge_sources e1.source e2.source])
    ∧ (∀ (fso : PyVal → PyVal → List Char) (e1 e2 : NmapEntry),
        nmapIsEmpty e1 = false → nmapIsEmpty e2 = false →
        baseKey e1 = baseKey e2 → identicalImportant e2 e1 = false →
        merge_entries fso [[e1], [e2]] = [e1, e2])
    ∧ (∀ (fso : PyVal → PyVal → List Char) (e1 e2 : NmapEntry),
        nmapIsEmpty e1 = false → nmapIsEmpty e2 = false →
        baseKey e1 ≠ baseKey e2 →
        merge_entries fso [[e1], [e2]] = [e1, e2])
    ∧ (∀ e2 e1 : NmapEntry, identicalImportant e2 e1 = true ↔
        ∀ k ∈ get_important_fields,
          importantStr e2 k = importantStr e1 k
          ∨ (memB (importantStr e2 k) sentinels4 = true
             ∧ memB (importantStr e1 k) sentinels4 = true))
    ∧ (∀ a b : List Char, merge_sources a b = merge_sources b a)
    ∧ (∀ a b : List Char, ∃ ts : List (List Char),
        merge_sources a b = List.intercalate (pys "+") ts
        ∧ ts.Sorted (· ≤ ·) ∧ ts.Nodup
        ∧ ∀ t, t ∈ ts ↔ (t ∈ pySplitOn '+' a ∨ t ∈ pySplitOn '+' b)) := by
  refine ⟨?_, ?_, ?_, ?_, ?_, ?_⟩
  · intro fso e1 e2 h1 h2 hk hid
    rw [merge_entries_pair fso e1 e2 h1 h2]
    have hfind : List.find? (fun p => decide (p.1 = baseKey e2))
        [(baseKey e1, e1)] = some (baseKey e1, e1) := by
      rw [← hk]; simp [List.find?]
    simp only [mergeStep, hfind, hid, if_pos]
    simp only [dictSet, hfind, Option.isSome_some, if_true]
    simp only [List.map_cons, List.map_nil, hk, if_pos, List.cons.injEq, and_true]
    rcases hso2 : e2.script_output with _ | so2 <;>
      rcases hso1 : e1.script_output with _ | so1 <;>
        simp [hso1, hso2] <;> split <;> simp
  · intro fso e1 e2 h1 h2 hk hid
    rw [merge_entries_pair fso e1 e2 h1 h2]
    have hfind : List.find? (fun p => decide (p.1 = baseKey e2))
        [(baseKey e1, e1)] = some (baseKey e1, e1) := by
      rw [← hk]; simp [List.find?]
    simp only [mergeStep, hfind, hid]
    have hne : baseKey e1 ≠ (e2.port, e2.protocol, e2.service_name, some e2.source) := by
      intro h
      have h4 := congrArg (fun q : MKey => q.2.2.2) h
      simp [baseKey] at h4
    simp [dictSet, List.find?, hne]
  · intro fso e1 e2 h1 h2 hk
    rw [merge_entries_pair fso e1 e2 h1 h2]
    have hfind : List.find? (fun p => decide (p.1 = baseKey e2))
        [(baseKey e1, e1)] = none := by
      simp [List.find?, hk]
    simp [mergeStep, hfind, dictSet, List.find?, hk]
  · intro e2 e1
    simp only [identicalImportant, List.all_eq_true, Bool.or_eq_true,
      Bool.and_eq_true, decide_eq_true_eq]
    exact ⟨fun h k hk => (h k hk).symm, fun h k hk => (h k hk).symm⟩
  · intro a b
    have hperm : List.Perm ((pySplitOn '+' a ++ pySplitOn '+' b).dedup)
        ((pySplitOn '+' b ++ pySplitOn '+' a).dedup) := by
      refine (List.perm_ext_iff_of_nodup (List.nodup_dedup _) (List.nodup_dedup _)).mpr ?_
      intro x
      simp only [List.mem_dedup, List.mem_append]
      exact Or.comm
    unfold merge_sources
    congr 1
    exact List.eq_of_perm_of_sorted
      ((List.perm_insertionSort _ _).trans
        (hperm.trans (List.perm_insertionSort _ _).symm))
      (List.sorted_insertionSort _ _) (List.sorted_insertionSort _ _)
  · intro a b
    refine ⟨List.insertionSort (· ≤ ·) ((pySplitOn '+' a ++ pySplitOn '+' b).dedup),
      rfl, List.sorted_insertionSort _ _, ?_, ?_⟩
    · exact ((List.perm_insertionSort _ _).nodup_iff).mpr (List.nodup_dedup _)
    · intro t
      rw [(List.perm_insertionSort _ _).mem_iff]
      simp [List.mem_dedup, List.mem_append]

/-- Closed witness for the amended C1 theorem at the concrete pair
`entryA`, `entryC` (identical important fields, sources `ip_tcp` and
`domain_tcp`): one merged row whose source is the sorted plus-join. -/
theorem merge_entries_merge_rule_witness :
    nmapIsEmpty entryA = false ∧ identicalImportant entryC entryA = true
    ∧ (merge_entries fso0 [[entryA], [entryC]]).map (fun e => e.source) =
        [pys "domain_tcp+ip_tcp"] := by
  refine ⟨by decide, by decide, ?_⟩
  have h := merge_entries_merge_rule.1 fso0 entryA entryC
    (by decide) (by decide) (by decide) (by decide)
  rw [h]
  decide

/-!
Section: Orchestrator (src/core/orchestrator.py)

Graphs are association lists from plugin name to dependency list, the
embedding of the Python dict of sets built by `build_dependency_graph`
(set objects only ever undergo membership tests, cardinality and
iteration whose order is irrelevant downstream, so a deduplicated list is
a faithful image).  The `while` loops are given explicit fuel; the
theorems show that with the fuel written here the loops stop only at
their natural exit condition, so the fuel is not observable.
-/

/-- One plugin configuration entry, with the fields read by the
orchestrator; `strict_dependencies` and `depends_on` keep their
dict-absence behaviour through `Option` (defaults true and empty list). -/
structure PluginConf where
  name : String
  enabled : Bool
  strict_dependencies : Option Bool
  depends_on : Option (List String)
deriving DecidableEq, Repr

/-- Dependency graph: plugin name to dependency names. -/
abbrev Graph := List (String × List String)

/-- The node list of a graph (Python `for node in graph`). -/
def keysG (g : Graph) : List String := g.map (fun p => p.1)

/-- The dependency list of a node (Python `graph[name]`, empty for a
missing key, which only the defaultdict reads ever see). -/
def depsOf (g : Graph) (n : String) : List String :=
  ((g.find? (fun p => p.1 = n)).map (fun p => p.2)).getD []

/-- Python dict assignment for string-keyed dicts. -/
def pyDictSet {β : Type _} (m : List (String × β)) (k : String) (v : β) :
    List (String × β) :=
  if (m.find? (fun p => p.1 = k)).isSome then
    m.map (fun p => if p.1 = k then (k, v) else p)
  else m ++ [(k, v)]

/-- The set `enabled_names` of `build_dependency_graph`. -/
def enabledNames (configs : List PluginConf) : List String :=
  (configs.filter (fun p => p.enabled)).map (fun p => p.name)

/-- Embeds `build_dependency_graph(plugin_configs)` of
src/core/orchestrator.py.  `graph[name] = set(depends)` is the dict
assignment of the deduplicated dependency list. -/
def build_dependency_graph (plugin_configs : List PluginConf) : Graph :=
  plugin_configs.foldl (fun g p =>
    let depends :=
      if p.strict_dependencies.getD true then
        (p.depends_on.getD []).filter (fun d => d ∈ enabledNames plugin_configs)
      else []
    pyDictSet g p.name depends.dedup) []

/-- The initial `in_degree` of `topological_sort`: one increment per
dependency of each node. -/
def initIndeg (g : Graph) : String → Nat := fun n => (depsOf g n).length

/-- The inner `for neighbor in graph` loop of `topological_sort` after
popping `n`: decrement the in-degree of every node that depends on `n`
and append those reaching zero to the queue, scanning in graph order. -/
def relax (n : String) : Graph → (String → Nat) → List String →
    ((String → Nat) × List String)
  | [], indeg, q => (indeg, q)
  | (nb, ds) :: rest, indeg, q =>
    if n ∈ ds then
      relax n rest (fun m => if m = nb then indeg nb - 1 else indeg m)
        (if indeg nb - 1 = 0 then q ++ [nb] else q)
    else relax n rest indeg q

/-- The `while queue` loop of `topological_sort`, with fuel. -/
def kahnLoop (g : Graph) : Nat → List String → (String → Nat) → List String →
    List String
  | 0, _, _, res => res
  | _ + 1, [], _, res => res
  | fuel + 1, n :: rest, indeg, res =>
    let st := relax n g indeg rest
    kahnLoop g fuel st.2 st.1 (res ++ [n])

/-- Embeds `topological_sort(graph)` of src/core/orchestrator.py
(Kahn).  The fuel `g.length + 1` is sufficient: every iteration moves one
node into the result, and the result stays a duplicate-free sublist of
the keys.  The `RuntimeError` of the source is the `Except.error`. -/
def topological_sort (g : Graph) : Except String (List String) :=
  let q0 := (keysG g).filter (fun n => initIndeg g n = 0)
  let res := kahnLoop g (g.length + 1) q0 (initIndeg g) []
  if res.length = g.length then .ok res
  else .error "Cyclic dependency detected among plugins!"

/-- The `to_run` computation of one orchestrator wave: not yet executed
and all dependencies executed, scanned in sorted order. -/
def readySet (g : Graph) (sorted executed : List String) : List String :=
  sorted.filter (fun n => ¬ n ∈ executed ∧ depsOf g n ⊆ executed)

/-- The `while len(executed) < len(sorted_plugins)` loop of
`orchestrate`: each iteration emits the wave that is gathered
concurrently and awaited before the next iteration starts. -/
def wavesLoop (g : Graph) (sorted : List String) : Nat → List String →
    List (List String)
  | 0, _ => []
  | fuel + 1, executed =>
    if executed.length < sorted.length then
      let toRun := readySet g sorted executed
      toRun :: wavesLoop g sorted fuel (executed ++ toRun)
    else []

/-- Embeds `orchestrate(config)` of src/core/orchestrator.py, returning
the sequence of concurrently-dispatched waves (each inner list is one
`asyncio.gather` batch of `run_plugin` invocations).  A cycle error from
`topological_sort` propagates before any wave is formed. -/
def orchestrate (config : List PluginConf) : Except String (List (List String)) :=
  let enabled := config.filter (fun p => p.enabled)
  let graph := build_dependency_graph enabled
  match topological_sort graph with
  | .error e => .error e
  | .ok sorted => .ok (wavesLoop graph sorted (sorted.length + 1) [])

/-- Well-formedness of a graph as produced by `build_dependency_graph`:
keys are distinct (it is a dict), dependency lists are duplicate-free
sets over the keys. -/
def wfGraph (g : Graph) : Prop :=
  (keysG g).Nodup ∧ ∀ p ∈ g, p.2.Nodup ∧ ∀ d ∈ p.2, d ∈ keysG g

/-- The graph contains a cycle: an infinite walk along dependency edges
exists (in a finite graph this is exactly reachability of a cycle). -/
def hasCycle (g : Graph) : Prop :=
  ∃ f : Nat → String, ∀ t, f (t + 1) ∈ depsOf g (f t)

/-- An ordering respects every edge: each element is preceded by all of
its dependencies. -/
def EdgeOrder (g : Graph) (res : List String) : Prop :=
  ∀ l1 n l2, res = l1 ++ n :: l2 → ∀ d ∈ depsOf g n, d ∈ l1

theorem depsOf_cons (nb : String) (ds : List String) (rest : Graph) (m : String) :
    depsOf ((nb, ds) :: rest) m = if m = nb then ds else depsOf rest m := by
  by_cases h : m = nb
  · subst h
    simp only [depsOf, if_pos rfl]
    rw [List.find?_cons_of_pos _ (by simp)]
    simp
  · rw [if_neg h]
    simp only [depsOf]
    rw [List.find?_cons_of_neg _
      (by simp only [decide_eq_true_eq]; exact fun hh => h hh.symm)]

theorem depsOf_ne_nil_mem (g : Graph) (n : String) (h : depsOf g n ≠ []) :
    n ∈ keysG g := by
  rcases hf : g.find? (fun p => decide (p.1 = n)) with _ | p
  · simp [depsOf, hf] at h
  · have hp : p ∈ g := List.mem_of_find?_eq_some hf
    have hpn : p.1 = n := by
      have := List.find?_some hf
      simpa using this
    exact hpn ▸ List.mem_map.mpr ⟨p, hp, rfl⟩

theorem depsOf_eq_of_mem (g : Graph) (hnd : (keysG g).Nodup) (m : String)
    (ds : List String) (hmem : (m, ds) ∈ g) : depsOf g m = ds := by
  induction g with
  | nil => cases hmem
  | cons a rest ih =>
    rcases a with ⟨an, ads⟩
    rcases List.mem_cons.mp hmem with h | h
    · cases h
      simp [depsOf_cons]
    · have hm : m ∈ keysG rest := List.mem_map.mpr ⟨(m, ds), h, rfl⟩
      have hne : m ≠ an := by
        intro he
        subst he
        exact (List.nodup_cons.mp (by simpa [keysG] using hnd)).1 hm
      rw [depsOf_cons, if_neg hne]
      exact ih (List.nodup_cons.mp (by simpa [keysG] using hnd)).2 h

theorem depsOf_subset_keys (g : Graph) (hwf : wfGraph g) (m : String) :
    ∀ d ∈ depsOf g m, d ∈ keysG g := by
  intro d hd
  rcases hf : g.find? (fun p => decide (p.1 = m)) with _ | p
  · simp [depsOf, hf] at hd
  · have hp : p ∈ g := List.mem_of_find?_eq_some hf
    have : d ∈ p.2 := by simpa [depsOf, hf] using hd
    exact (hwf.2 p hp).2 d this

theorem depsOf_nodup (g : Graph) (hwf : wfGraph g) (m : String) :
    (depsOf g m).Nodup := by
  rcases hf : g.find? (fun p => decide (p.1 = m)) with _ | p
  · simp [depsOf, hf]
  · have hp : p ∈ g := List.mem_of_find?_eq_some hf
    simpa [depsOf, hf] using (hwf.2 p hp).1

theorem mem_keysG_exists (g : Graph) (m : String) (h : m ∈ keysG g) :
    ∃ ds, (m, ds) ∈ g := by
  rcases List.mem_map.mp h with ⟨⟨pn, pd⟩, hp, hpe⟩
  cases hpe
  exact ⟨pd, hp⟩

/-- A strictly descending sequence of naturals cannot exist. -/
theorem no_strict_descent (a : Nat → Nat) (h : ∀ t, a (t + 1) < a t) : False := by
  have hb : ∀ t, a t + t ≤ a 0 := by
    intro t
    induction t with
    | zero => simp
    | succ k ih =>
      have := h k
      omega
  have := hb (a 0 + 1)
  omega

/-- If every unfinished node keeps an unfinished dependency, an infinite
dependency walk exists: the graph has a cycle. -/
theorem cycle_of_stuck (g : Graph) (hwf : wfGraph g) (ex : List String)
    (hstuck : ∀ m, m ∈ keysG g → m ∉ ex → ∃ d ∈ depsOf g m, d ∉ ex)
    (m0 : String) (hm0 : m0 ∈ keysG g) (hm0e : m0 ∉ ex) : hasCycle g := by
  classical
  have step : ∀ m : {m : String // m ∈ keysG g ∧ m ∉ ex},
      ∃ d : {m : String // m ∈ keysG g ∧ m ∉ ex}, d.1 ∈ depsOf g m.1 := by
    rintro ⟨m, hm, hme⟩
    obtain ⟨d, hd, hde⟩ := hstuck m hm hme
    exact ⟨⟨d, depsOf_subset_keys g hwf m d hd, hde⟩, hd⟩
  choose next hnext using step
  refine ⟨fun t => (Nat.rec (motive := fun _ => {m : String // m ∈ keysG g ∧ m ∉ ex})
    ⟨m0, hm0, hm0e⟩ (fun _ prev => next prev) t).1, ?_⟩
  intro t
  exact hnext _

/-- In a well-formed acyclic graph, any state with an unfinished node has
a ready unfinished node (all of its dependencies finished). -/
theorem exists_ready (g : Graph) (hwf : wfGraph g) (hnc : ¬hasCycle g)
    (ex : List String) (hne : ∃ m ∈ keysG g, m ∉ ex) :
    ∃ n ∈ keysG g, n ∉ ex ∧ ∀ d ∈ depsOf g n, d ∈ ex := by
  by_contra hcon
  push_neg at hcon
  obtain ⟨m0, hm0, hm0e⟩ := hne
  refine hnc (cycle_of_stuck g hwf ex ?_ m0 hm0 hm0e)
  intro m hm hme
  obtain ⟨d, hd, hde⟩ := hcon m hm hme
  exact ⟨d, hd, hde⟩

theorem keysG_cons_nodup {nb : String} {ds : List String} {t : Graph}
    (h : (keysG ((nb, ds) :: t)).Nodup) : nb ∉ keysG t ∧ (keysG t).Nodup := by
  rw [show keysG ((nb, ds) :: t) = nb :: keysG t from rfl] at h
  exact List.nodup_cons.mp h

/-- The updated in-degree function after relaxing the successors of `n`:
every node that depends on `n` is decremented once. -/
theorem relax_fst (n : String) : ∀ (rest : Graph) (indeg : String → Nat)
    (q : List String), (keysG rest).Nodup → ∀ m,
    (relax n rest indeg q).1 m =
      if m ∈ keysG rest ∧ n ∈ depsOf rest m then indeg m - 1 else indeg m := by
  intro rest
  induction rest with
  | nil => intro indeg q _ m; simp [relax, depsOf]
  | cons a t ih =>
    rcases a with ⟨nb, ds⟩
    intro indeg q hnd m
    obtain ⟨hnb, hnd'⟩ := keysG_cons_nodup hnd
    by_cases hn : n ∈ ds
    · rw [relax, if_pos hn, ih _ _ hnd' m]
      by_cases hm : m = nb
      · subst hm
        rw [if_neg (fun hc => hnb hc.1)]
        have hdep : depsOf ((m, ds) :: t) m = ds := by rw [depsOf_cons, if_pos rfl]
        have hmk : m ∈ keysG ((m, ds) :: t) := by
          rw [show keysG ((m, ds) :: t) = m :: keysG t from rfl]
          exact List.mem_cons_self _ _
        simp [hdep, hmk, hn]
      · have hupd : (if m = nb then indeg nb - 1 else indeg m) = indeg m := if_neg hm
        have hdep : depsOf ((nb, ds) :: t) m = depsOf t m := by
          rw [depsOf_cons, if_neg hm]
        have hkey : (m ∈ keysG ((nb, ds) :: t)) ↔ m ∈ keysG t := by
          rw [show keysG ((nb, ds) :: t) = nb :: keysG t from rfl, List.mem_cons]
          simp [hm]
        simp only [hdep, hkey, hupd]
    · rw [relax, if_neg hn, ih _ _ hnd' m]
      by_cases hm : m = nb
      · subst hm
        rw [if_neg (fun hc => hnb hc.1)]
        have hdep : depsOf ((m, ds) :: t) m = ds := by rw [depsOf_cons, if_pos rfl]
        simp [hdep, hn]
      · have hdep : depsOf ((nb, ds) :: t) m = depsOf t m := by
          rw [depsOf_cons, if_neg hm]
        have hkey : (m ∈ keysG ((nb, ds) :: t)) ↔ m ∈ keysG t := by
          rw [show keysG ((nb, ds) :: t) = nb :: keysG t from rfl, List.mem_cons]
          simp [hm]
        simp only [hdep, hkey]

/-- The queue after relaxing: the nodes that depend on `n` and reach
in-degree zero are appended in graph order. -/
theorem relax_snd (n : String) : ∀ (rest : Graph) (indeg : String → Nat)
    (q : List String), (keysG rest).Nodup →
    (relax n rest indeg q).2 =
      q ++ (rest.filter (fun p => n ∈ p.2 ∧ indeg p.1 - 1 = 0)).map
        (fun p => p.1) := by
  intro rest
  induction rest with
  | nil => intro indeg q _; simp [relax]
  | cons a t ih =>
    rcases a with ⟨nb, ds⟩
    intro indeg q hnd
    obtain ⟨hnb, hnd'⟩ := keysG_cons_nodup hnd
    have hfc : ∀ p ∈ t,
        (decide (n ∈ p.2 ∧ (fun m => if m = nb then indeg nb - 1 else indeg m) p.1 - 1 = 0)) =
        (decide (n ∈ p.2 ∧ indeg p.1 - 1 = 0)) := by
      intro p hp
      have hpne : p.1 ≠ nb := by
        intro he
        exact hnb (he ▸ List.mem_map.mpr ⟨p, hp, rfl⟩)
      simp [hpne]
    by_cases hn : n ∈ ds
    · rw [relax, if_pos hn, ih _ _ hnd']
      rw [List.filter_congr hfc]
      rw [List.filter_cons]
      by_cases hz : indeg nb - 1 = 0
      · rw [if_pos hz, if_pos (by simp [hn, hz])]
        simp
      · rw [if_neg hz, if_neg (by simp [hn, hz])]
    · rw [relax, if_neg hn, ih _ _ hnd', List.filter_cons,
        if_neg (by simp [hn])]

/-- Loop invariant of the Kahn queue loop. -/
structure KahnInv (g : Graph) (q res : List String) (indeg : String → Nat) : Prop where
  res_nodup : res.Nodup
  q_nodup : q.Nodup
  q_disj : ∀ x ∈ q, x ∉ res
  res_keys : ∀ x ∈ res, x ∈ keysG g
  q_keys : ∀ x ∈ q, x ∈ keysG g
  indeg_eq : ∀ m ∈ keysG g,
    indeg m = ((depsOf g m).filter (fun d => d ∉ res)).length
  q_ready : ∀ m ∈ q, ∀ d ∈ depsOf g m, d ∈ res
  zero_sched : ∀ m ∈ keysG g, indeg m = 0 → m ∈ q ∨ m ∈ res
  good : EdgeOrder g res

/-- The invariant holds at loop entry. -/
theorem kahnInv_init (g : Graph) (hwf : wfGraph g) :
    KahnInv g ((keysG g).filter (fun n => initIndeg g n = 0)) [] (initIndeg g) := by
  refine ⟨List.nodup_nil, hwf.1.filter _, ?_, ?_, ?_, ?_, ?_, ?_, ?_⟩
  · intro x _; simp
  · intro x hx; cases hx
  · intro x hx; exact (List.mem_filter.mp hx).1
  · intro m _; simp [initIndeg]
  · intro m hm d hd
    have h0 : initIndeg g m = 0 := by
      have := (List.mem_filter.mp hm).2
      simpa using this
    have : depsOf g m = [] := List.length_eq_zero.mp h0
    rw [this] at hd
    cases hd
  · intro m hm h0
    exact Or.inl (List.mem_filter.mpr ⟨hm, by simpa using h0⟩)
  · intro l1 n l2 h
    exact absurd h (by simp)

/-- Appending a node whose dependencies are all present keeps the
edge-respecting property of the result list. -/
theorem edgeOrder_snoc (g : Graph) (res : List String) (n : String)
    (hgood : EdgeOrder g res) (hready : ∀ d ∈ depsOf g n, d ∈ res) :
    EdgeOrder g (res ++ [n]) := by
  intro l1 x l2 heq d hd
  rcases List.eq_nil_or_concat l2 with h2 | ⟨l2', y, hy⟩
  · subst h2
    obtain ⟨h1, h2⟩ := List.append_inj' heq rfl
    cases h1
    have hx : x = n := by simpa using h2.symm
    subst hx
    exact hready d hd
  · subst hy
    have heq2 : res ++ [n] = (l1 ++ x :: l2') ++ [y] := by
      rw [heq]
      simp
    obtain ⟨h1, _⟩ := List.append_inj' heq2 rfl
    exact hgood l1 x l2' h1 d hd

/-- Removing one occurrence of a member from a duplicate-free list by
filtering drops the length by exactly one. -/
theorem length_filter_ne_of_mem {l : List String} {a : String}
    (hnd : l.Nodup) (ha : a ∈ l) :
    (l.filter (fun d => d ≠ a)).length + 1 = l.length := by
  induction l with
  | nil => cases ha
  | cons x t ih =>
    have hx := List.nodup_cons.mp hnd
    by_cases he : x = a
    · subst he
      rw [List.filter_cons_of_neg (by simp)]
      have : t.filter (fun d => d ≠ x) = t := by
        apply List.filter_eq_self.mpr
        intro d hd
        simp only [decide_eq_true_eq]
        exact fun hda => hx.1 (hda ▸ hd)
      rw [this]
      simp
    · have hat : a ∈ t := by
        rcases List.mem_cons.mp ha with h | h
        · exact absurd h.symm he
        · exact h
      rw [List.filter_cons_of_pos (by simpa using he)]
      simp only [List.length_cons]
      rw [← ih hx.2 hat]

set_option maxHeartbeats 1000000 in
/-- One pop of the Kahn queue preserves the loop invariant. -/
theorem kahnInv_step (g : Graph) (hwf : wfGraph g) (n : String)
    (rest res : List String) (indeg : String → Nat)
    (hInv : KahnInv g (n :: rest) res indeg) :
    KahnInv g (relax n g indeg rest).2 (res ++ [n]) (relax n g indeg rest).1 := by
  have hnd : (keysG g).Nodup := hwf.1
  have hnq : n ∈ n :: rest := List.mem_cons_self _ _
  have hnk : n ∈ keysG g := hInv.q_keys n hnq
  have hnres : n ∉ res := hInv.q_disj n hnq
  have hnready : ∀ d ∈ depsOf g n, d ∈ res := hInv.q_ready n hnq
  have hqn := List.nodup_cons.mp hInv.q_nodup
  have hq' : (relax n g indeg rest).2 =
      rest ++ (g.filter (fun p => n ∈ p.2 ∧ indeg p.1 - 1 = 0)).map (fun p => p.1) :=
    relax_snd n g indeg rest hnd
  have hfst : ∀ m, (relax n g indeg rest).1 m =
      if m ∈ keysG g ∧ n ∈ depsOf g m then indeg m - 1 else indeg m :=
    relax_fst n g indeg rest hnd
  set app := (g.filter (fun p => n ∈ p.2 ∧ indeg p.1 - 1 = 0)).map (fun p => p.1)
    with happ_def
  have happ_sub : List.Sublist app (keysG g) := (List.filter_sublist _).map _
  have happ : ∀ m, m ∈ app ↔ (m ∈ keysG g ∧ n ∈ depsOf g m ∧ indeg m - 1 = 0) := by
    intro m
    constructor
    · intro hm
      rcases List.mem_map.mp hm with ⟨p, hpf, hpe⟩
      have hpg : p ∈ g := List.mem_filter.mp hpf |>.1
      have hpc := List.mem_filter.mp hpf |>.2
      have hpc' : n ∈ p.2 ∧ indeg p.1 - 1 = 0 := by simpa using hpc
      have hdep : depsOf g p.1 = p.2 := depsOf_eq_of_mem g hnd p.1 p.2 hpg
      subst hpe
      exact ⟨List.mem_map.mpr ⟨p, hpg, rfl⟩, hdep ▸ hpc'.1, hpc'.2⟩
    · rintro ⟨hmk, hmd, hmz⟩
      obtain ⟨ds, hds⟩ := mem_keysG_exists g m hmk
      have hdep : depsOf g m = ds := depsOf_eq_of_mem g hnd m ds hds
      refine List.mem_map.mpr ⟨(m, ds), List.mem_filter.mpr ⟨hds, ?_⟩, rfl⟩
      simp only [decide_eq_true_eq]
      exact ⟨hdep ▸ hmd, hmz⟩
  have hF1 : ∀ m, n ∈ depsOf g m → m ∉ res := by
    intro m hmd hmr
    obtain ⟨s, t, hst⟩ := List.append_of_mem hmr
    have := hInv.good s m t hst n hmd
    exact hnres (hst ▸ List.mem_append.mpr (Or.inl this))
  have hF2 : ∀ m ∈ n :: rest, n ∉ depsOf g m := by
    intro m hm hmd
    exact hnres (hInv.q_ready m hm n hmd)
  have happ_nodup : app.Nodup := hnd.sublist happ_sub
  have happ_res : ∀ m ∈ app, m ∉ res := by
    intro m hm
    exact hF1 m ((happ m).mp hm).2.1
  have happ_ne : ∀ m ∈ app, m ≠ n := by
    intro m hm he
    subst he
    exact hF2 m hnq ((happ m).mp hm).2.1
  have happ_rest : ∀ m ∈ app, m ∉ rest := by
    intro m hm hmr
    exact hF2 m (List.mem_cons_of_mem _ hmr) ((happ m).mp hm).2.1
  have hindeg' : ∀ m ∈ keysG g, (relax n g indeg rest).1 m =
      ((depsOf g m).filter (fun d => d ∉ res ++ [n])).length := by
    intro m hmk
    rw [hfst m]
    have hdn : (depsOf g m).Nodup := depsOf_nodup g hwf m
    by_cases hc : n ∈ depsOf g m
    · rw [if_pos ⟨hmk, hc⟩, hInv.indeg_eq m hmk]
      have hfe : (depsOf g m).filter (fun d => d ∉ res ++ [n]) =
          ((depsOf g m).filter (fun d => d ∉ res)).filter (fun d => d ≠ n) := by
        rw [List.filter_filter]
        apply List.filter_congr
        intro d _
        by_cases hdr : d ∈ res <;> by_cases hdn2 : d = n <;> simp [hdr, hdn2]
      rw [hfe]
      have hmem : n ∈ (depsOf g m).filter (fun d => d ∉ res) :=
        List.mem_filter.mpr ⟨hc, by simpa using hnres⟩
      have hfn : (depsOf g m).filter (fun d => d ∉ res) |>.Nodup :=
        hdn.filter _
      have := length_filter_ne_of_mem hfn hmem
      omega
    · rw [if_neg (fun hcc => hc hcc.2), hInv.indeg_eq m hmk]
      congr 1
      apply List.filter_congr
      intro d hd
      have hdne : d ≠ n := fun he => hc (he ▸ hd)
      simp [List.mem_append, hdne]
  refine ⟨?_, ?_, ?_, ?_, ?_, ?_, ?_, ?_, ?_⟩
  · rw [List.nodup_append]
    refine ⟨hInv.res_nodup, List.nodup_singleton _, ?_⟩
    intro a ha hb
    rw [List.mem_singleton] at hb
    subst hb
    exact hnres ha
  · rw [hq', List.nodup_append]
    exact ⟨hqn.2, happ_nodup, fun a ha hb => happ_rest a hb ha⟩
  · intro x hx
    rw [hq'] at hx
    rw [List.mem_append, List.mem_singleton]
    rcases List.mem_append.mp hx with h | h
    · rintro (hr | he)
      · exact hInv.q_disj x (List.mem_cons_of_mem _ h) hr
      · exact hqn.1 (he ▸ h)
    · rintro (hr | he)
      · exact happ_res x h hr
      · exact happ_ne x h he
  · intro x hx
    rcases List.mem_append.mp hx with h | h
    · exact hInv.res_keys x h
    · rw [List.mem_singleton] at h
      exact h ▸ hnk
  · intro x hx
    rw [hq'] at hx
    rcases List.mem_append.mp hx with h | h
    · exact hInv.q_keys x (List.mem_cons_of_mem _ h)
    · exact ((happ x).mp h).1
  · exact hindeg'
  · intro m hm d hd
    rw [hq'] at hm
    rcases List.mem_append.mp hm with h | h
    · exact List.mem_append.mpr
        (Or.inl (hInv.q_ready m (List.mem_cons_of_mem _ h) d hd))
    · have hz := hindeg' m ((happ m).mp h).1
      rw [hfst m, if_pos ⟨((happ m).mp h).1, ((happ m).mp h).2.1⟩,
        ((happ m).mp h).2.2] at hz
      have hnil : (depsOf g m).filter (fun d => d ∉ res ++ [n]) = [] :=
        List.length_eq_zero.mp hz.symm
      by_contra hdc
      have hdm : d ∈ (depsOf g m).filter (fun d => d ∉ res ++ [n]) :=
        List.mem_filter.mpr ⟨hd, by simpa using hdc⟩
      rw [hnil] at hdm
      cases hdm
  · intro m hmk hz
    rw [hfst m] at hz
    by_cases hc : n ∈ depsOf g m
    · rw [if_pos ⟨hmk, hc⟩] at hz
      refine Or.inl ?_
      rw [hq', List.mem_append]
      exact Or.inr ((happ m).mpr ⟨hmk, hc, hz⟩)
    · rw [if_neg (fun hcc => hc hcc.2)] at hz
      rcases hInv.zero_sched m hmk hz with h | h
      · rcases List.mem_cons.mp h with he | hr
        · exact Or.inr (List.mem_append.mpr (Or.inr (by simp [he])))
        · exact Or.inl (by rw [hq']; exact List.mem_append.mpr (Or.inl hr))
      · exact Or.inr (List.mem_append.mpr (Or.inl h))
  · exact edgeOrder_snoc g res n hInv.good hnready

/-- With fuel exceeding the number of keys, the Kahn loop drains its
queue completely: the result extends `res ++ q`, satisfies the invariant
with an empty queue, and in particular is duplicate-free and
edge-respecting. -/
theorem kahnLoop_spec (g : Graph) (hwf : wfGraph g) : ∀ (fuel : Nat)
    (q res : List String) (indeg : String → Nat),
    KahnInv g q res indeg → g.length < res.length + fuel →
    ∃ R indegF, kahnLoop g fuel q indeg res = R ∧ KahnInv g [] R indegF
      ∧ List.IsPrefix (res ++ q) R := by
  intro fuel
  induction fuel with
  | zero =>
    intro q res indeg hInv hlen
    exfalso
    have hsub : res.Subperm (keysG g) :=
      (hInv.res_nodup).subperm (fun x hx => hInv.res_keys x hx)
    have h1 : res.length ≤ (keysG g).length := hsub.length_le
    have h2 : (keysG g).length = g.length := List.length_map _ _
    omega
  | succ fuel ih =>
    intro q res indeg hInv hlen
    cases q with
    | nil =>
      exact ⟨res, indeg, rfl, hInv, by simp⟩
    | cons n rest =>
      have hstep := kahnInv_step g hwf n rest res indeg hInv
      obtain ⟨R, indegF, hR, hInvF, hpre⟩ :=
        ih (relax n g indeg rest).2 (res ++ [n]) (relax n g indeg rest).1 hstep
          (by simp only [List.length_append, List.length_singleton]; omega)
      refine ⟨R, indegF, ?_, hInvF, ?_⟩
      · rw [kahnLoop, ← hR]
      · have h1 : List.IsPrefix (res ++ n :: rest) ((res ++ [n]) ++ (relax n g indeg rest).2) := by
          rw [relax_snd n g indeg rest hwf.1]
          refine ⟨(g.filter (fun p => n ∈ p.2 ∧ indeg p.1 - 1 = 0)).map (fun p => p.1), ?_⟩
          simp
        exact h1.trans hpre

/-- A duplicate-free, edge-respecting list containing every key admits no
dependency cycle: positions strictly decrease along dependency edges. -/
theorem good_no_cycle (g : Graph) (R : List String) (hRnd : R.Nodup)
    (hkR : ∀ k ∈ keysG g, k ∈ R) (hgood : EdgeOrder g R) : ¬hasCycle g := by
  rintro ⟨f, hf⟩
  have hfk : ∀ t, f t ∈ keysG g := by
    intro t
    refine depsOf_ne_nil_mem g (f t) (fun he => ?_)
    have h := hf t
    rw [he] at h
    cases h
  have hdesc : ∀ t, R.indexOf (f (t + 1)) < R.indexOf (f t) := by
    intro t
    have hmem : f t ∈ R := hkR _ (hfk t)
    obtain ⟨s, u, hsu⟩ := List.append_of_mem hmem
    have hnotin : f t ∉ s := by
      intro hs
      rw [hsu] at hRnd
      exact (List.disjoint_of_nodup_append hRnd) hs (List.mem_cons_self _ _)
    have hnext : f (t + 1) ∈ s := hgood s (f t) u hsu (f (t + 1)) (hf t)
    rw [hsu, List.indexOf_append_of_mem hnext,
      List.indexOf_append_of_not_mem hnotin, List.indexOf_cons_self]
    have h1 : s.indexOf (f (t + 1)) < s.length := List.indexOf_lt_length.mpr hnext
    omega
  exact no_strict_descent (fun t => R.indexOf (f t)) hdesc

/-- Full behaviour of the embedded `topological_sort`: on an acyclic
well-formed graph it returns a permutation of the nodes in which every
node is preceded by its dependencies, starting with the zero-in-degree
nodes in input order; on a cyclic graph it raises the dedicated error. -/
theorem topological_sort_spec (g : Graph) (hwf : wfGraph g) :
    (¬hasCycle g → ∃ R, topological_sort g = .ok R ∧ R.Perm (keysG g)
      ∧ EdgeOrder g R
      ∧ List.IsPrefix ((keysG g).filter (fun n => initIndeg g n = 0)) R)
    ∧ (hasCycle g →
      topological_sort g = .error "Cyclic dependency detected among plugins!") := by
  obtain ⟨R, indegF, hrun, hInvF, hpref⟩ := kahnLoop_spec g hwf (g.length + 1)
    ((keysG g).filter (fun n => initIndeg g n = 0)) [] (initIndeg g)
    (kahnInv_init g hwf) (by simp)
  have hkeyslen : (keysG g).length = g.length := List.length_map _ _
  have hsub : R.Subperm (keysG g) :=
    hInvF.res_nodup.subperm (fun x hx => hInvF.res_keys x hx)
  have hlen_le : R.length ≤ g.length := by
    have := hsub.length_le
    omega
  have hts : topological_sort g =
      if R.length = g.length then .ok R
      else .error "Cyclic dependency detected among plugins!" := by
    simp only [topological_sort]
    rw [hrun]
  constructor
  · intro hnc
    have hall : ∀ k ∈ keysG g, k ∈ R := by
      by_contra hcon
      push_neg at hcon
      obtain ⟨k0, hk0, hk0r⟩ := hcon
      refine hnc (cycle_of_stuck g hwf R ?_ k0 hk0 hk0r)
      intro m hm hmr
      have hnz : indegF m ≠ 0 := by
        intro h0
        rcases hInvF.zero_sched m hm h0 with h | h
        · cases h
        · exact hmr h
      rw [hInvF.indeg_eq m hm] at hnz
      have hne : (depsOf g m).filter (fun d => d ∉ R) ≠ [] := by
        intro he
        rw [he] at hnz
        exact hnz rfl
      obtain ⟨d, hd⟩ := List.exists_mem_of_ne_nil _ hne
      have hdf := List.mem_filter.mp hd
      exact ⟨d, hdf.1, by simpa using hdf.2⟩
    have hlen_ge : g.length ≤ R.length := by
      have hksub : (keysG g).Subperm R := hwf.1.subperm (fun x hx => hall x hx)
      have := hksub.length_le
      omega
    have hlen : R.length = g.length := le_antisymm hlen_le hlen_ge
    refine ⟨R, by rw [hts, if_pos hlen], ?_, hInvF.good, by simpa using hpref⟩
    exact hsub.perm_of_length_le (by omega)
  · intro hcyc
    rw [hts]
    by_cases hlen : R.length = g.length
    · exfalso
      have hperm : R.Perm (keysG g) := hsub.perm_of_length_le (by omega)
      exact good_no_cycle g R hInvF.res_nodup
        (fun k hk => hperm.mem_iff.mpr hk) hInvF.good hcyc
    · rw [if_neg hlen]

/-- The dependency list `build_dependency_graph` stores for a plugin. -/
def buildDeps (configs : List PluginConf) (p : PluginConf) : List String :=
  (if p.strict_dependencies.getD true then
    (p.depends_on.getD []).filter (fun d => d ∈ enabledNames configs)
  else []).dedup

/-- Folding dict assignments over fresh keys is list append. -/
theorem foldl_pyDictSet (F : PluginConf → List String) :
    ∀ (l : List PluginConf) (g0 : Graph),
    (∀ p ∈ l, p.name ∉ keysG g0) → (l.map PluginConf.name).Nodup →
    l.foldl (fun g p => pyDictSet g p.name (F p)) g0 =
      g0 ++ l.map (fun p => (p.name, F p)) := by
  intro l
  induction l with
  | nil => intro g0 _ _; simp
  | cons p t ih =>
    intro g0 hfresh hnd
    have hpn : p.name ∉ keysG g0 := hfresh p (List.mem_cons_self _ _)
    have hfind : g0.find? (fun q => decide (q.1 = p.name)) = none := by
      rw [List.find?_eq_none]
      intro x hx
      simp only [decide_eq_true_eq]
      exact fun he => hpn (he ▸ List.mem_map.mpr ⟨x, hx, rfl⟩)
    have hset : pyDictSet g0 p.name (F p) = g0 ++ [(p.name, F p)] := by
      rw [pyDictSet, if_neg (by rw [hfind]; simp)]
    rw [List.foldl_cons, hset, ih (g0 ++ [(p.name, F p)]) ?_ ?_]
    · simp
    · intro q hq
      have hq1 : q.name ∉ keysG g0 := hfresh q (List.mem_cons_of_mem _ hq)
      have hq2 : q.name ≠ p.name := by
        have hnc := (List.nodup_cons.mp
          (show (p.name :: t.map PluginConf.name).Nodup from hnd)).1
        exact fun he => hnc (he ▸ List.mem_map.mpr ⟨q, hq, rfl⟩)
      intro hc
      rw [show keysG (g0 ++ [(p.name, F p)]) = keysG g0 ++ [p.name] by
        simp [keysG]] at hc
      rcases List.mem_append.mp hc with h | h
      · exact hq1 h
      · exact hq2 (by simpa using h)
    · exact (List.nodup_cons.mp
        (show (p.name :: t.map PluginConf.name).Nodup from hnd)).2

/-- Under distinct names, the built graph is the list of per-plugin
dependency entries in input order. -/
theorem build_eq_map (configs : List PluginConf)
    (hnd : (configs.map PluginConf.name).Nodup) :
    build_dependency_graph configs =
      configs.map (fun p => (p.name, buildDeps configs p)) := by
  have h := foldl_pyDictSet (buildDeps configs) configs []
    (by intro p _ hc; simp [keysG] at hc) hnd
  simpa [build_dependency_graph, buildDeps] using h

/-- The built graph is well formed. -/
theorem wf_build (configs : List PluginConf)
    (hnd : (configs.map PluginConf.name).Nodup) :
    wfGraph (build_dependency_graph configs) := by
  rw [build_eq_map configs hnd]
  constructor
  · simpa [keysG, Function.comp] using hnd
  · intro p hp
    rcases List.mem_map.mp hp with ⟨q, hq, hqe⟩
    subst hqe
    refine ⟨List.nodup_dedup _, ?_⟩
    intro d hd
    replace hd : d ∈ buildDeps configs q := hd
    rw [buildDeps, List.mem_dedup] at hd
    have hkeq : keysG (configs.map (fun p => (p.name, buildDeps configs p))) =
        configs.map PluginConf.name := by
      simp [keysG]
    rw [hkeq]
    by_cases hs : q.strict_dependencies.getD true = true
    · rw [if_pos hs] at hd
      have hde : d ∈ enabledNames configs := by
        have := (List.mem_filter.mp hd).2
        simpa using this
      rcases List.mem_map.mp hde with ⟨r, hr, hre⟩
      exact hre ▸ List.mem_map.mpr ⟨r, List.mem_of_mem_filter hr, rfl⟩
    · rw [if_neg hs] at hd
      cases hd

/-- C4: in the graph built by `build_dependency_graph`, a plugin with
strict dependencies has exactly one edge to each name of its
`depends_on` list that belongs to an enabled plugin of the configuration
(names of disabled or unknown plugins are dropped without error), and a
plugin with `strict_dependencies = false` has no edges at all; every
listed plugin is a node. -/
theorem build_dependency_graph_spec (configs : List PluginConf)
    (hnd : (configs.map PluginConf.name).Nodup) :
    (∀ p ∈ configs, ∀ d,
      d ∈ depsOf (build_dependency_graph configs) p.name ↔
        (p.strict_dependencies.getD true = true ∧ d ∈ p.depends_on.getD []
          ∧ ∃ q ∈ configs, q.name = d ∧ q.enabled = true))
    ∧ keysG (build_dependency_graph configs) = configs.map PluginConf.name := by
  have hmap := build_eq_map configs hnd
  have hkeq : keysG (build_dependency_graph configs) = configs.map PluginConf.name := by
    rw [hmap]; simp [keysG]
  refine ⟨?_, hkeq⟩
  intro p hp d
  have hnd2 : (keysG (build_dependency_graph configs)).Nodup := by
    rw [hkeq]; exact hnd
  have hdep : depsOf (build_dependency_graph configs) p.name = buildDeps configs p := by
    apply depsOf_eq_of_mem _ hnd2
    rw [hmap]
    exact List.mem_map.mpr ⟨p, hp, rfl⟩
  rw [hdep, buildDeps, List.mem_dedup]
  by_cases hs : p.strict_dependencies.getD true = true
  · rw [if_pos hs]
    simp only [List.mem_filter, decide_eq_true_eq]
    constructor
    · rintro ⟨h1, h2⟩
      rcases List.mem_map.mp h2 with ⟨r, hr, hre⟩
      have hrf := List.mem_filter.mp hr
      exact ⟨hs, h1, r, hrf.1, hre, by simpa using hrf.2⟩
    · rintro ⟨_, h1, q, hq, hqe, hqen⟩
      refine ⟨h1, ?_⟩
      exact hqe ▸ List.mem_map.mpr ⟨q, List.mem_filter.mpr ⟨hq, by simpa using hqen⟩, rfl⟩
  · rw [if_neg hs]
    simp only [List.not_mem_nil, false_iff]
    rintro ⟨h1, _, _⟩
    exact hs h1

/-- Concrete plugin configurations used by the C4 witness (the scenario
of the spec: a dependency on a disabled plugin and one on an enabled
plugin). -/
def confA : PluginConf := ⟨"A", false, some true, none⟩

/-- Enabled plugin depending on the disabled `confA` and the enabled
`confC0`. -/
def confB : PluginConf := ⟨"B", true, some true, some ["A", "C"]⟩

/-- Enabled dependency target. -/
def confC0 : PluginConf := ⟨"C", true, some true, none⟩

/-- Non-strict plugin with a declared dependency. -/
def confD : PluginConf := ⟨"D", true, some false, some ["C"]⟩

/-- Closed witness for C4: with A disabled, B strict and C enabled, the
edge B to C is present, the edge B to A is dropped, and the non-strict D
contributes no edge. -/
theorem build_dependency_graph_spec_witness :
    ("C" ∈ depsOf (build_dependency_graph [confA, confB, confC0, confD]) "B")
    ∧ ¬ ("A" ∈ depsOf (build_dependency_graph [confA, confB, confC0, confD]) "B")
    ∧ ¬ ("C" ∈ depsOf (build_dependency_graph [confA, confB, confC0, confD]) "D")
    ∧ keysG (build_dependency_graph [confA, confB, confC0, confD]) =
        ["A", "B", "C", "D"] := by
  have h := build_dependency_graph_spec [confA, confB, confC0, confD] (by decide)
  refine ⟨?_, ?_, ?_, ?_⟩
  · exact (h.1 confB (by decide) "C").mpr (by decide)
  · intro hc
    have := (h.1 confB (by decide) "A").mp hc
    revert this
    decide
  · intro hc
    have := (h.1 confD (by decide) "C").mp hc
    revert this
    decide
  · exact h.2.trans (by decide)

/-- Behaviour of the orchestrator wave loop on an acyclic graph: every
wave is exactly the ready set over what ran before it (hence maximal),
every wave is non-empty, and the loop ends with the executed set equal to
the sorted list. -/
theorem wavesLoop_spec (g : Graph) (sorted : List String) (hwf : wfGraph g)
    (hnc : ¬hasCycle g) (hperm : sorted.Perm (keysG g)) :
    ∀ (fuel : Nat) (executed : List String), executed.Nodup →
    (∀ x ∈ executed, x ∈ sorted) →
    (∀ m ∈ executed, ∀ d ∈ depsOf g m, d ∈ executed) →
    sorted.length < executed.length + fuel →
    (∀ k (hk : k < (wavesLoop g sorted fuel executed).length),
        (wavesLoop g sorted fuel executed).get ⟨k, hk⟩ =
          readySet g sorted
            (executed ++ ((wavesLoop g sorted fuel executed).take k).flatten))
    ∧ (executed ++ (wavesLoop g sorted fuel executed).flatten).Perm sorted
    ∧ (∀ w ∈ wavesLoop g sorted fuel executed, w ≠ []) := by
  have hsnd : sorted.Nodup := (hperm.nodup_iff).mpr hwf.1
  have hslen : sorted.length = (keysG g).length := hperm.length_eq
  intro fuel
  induction fuel with
  | zero =>
    intro executed hnd hsub hclosed hlen
    exfalso
    have hsp : executed.Subperm sorted := hnd.subperm (fun x hx => hsub x hx)
    have := hsp.length_le
    omega
  | succ fuel ih =>
    intro executed hnd hsub hclosed hlen
    by_cases hcond : executed.length < sorted.length
    · have hws : wavesLoop g sorted (fuel + 1) executed =
          readySet g sorted executed ::
            wavesLoop g sorted fuel (executed ++ readySet g sorted executed) := by
        rw [wavesLoop, if_pos hcond]
      have hrs_mem : ∀ x ∈ readySet g sorted executed,
          x ∈ sorted ∧ x ∉ executed ∧ ∀ d ∈ depsOf g x, d ∈ executed := by
        intro x hx
        have h1 := List.mem_filter.mp hx
        have h2 : ¬x ∈ executed ∧ depsOf g x ⊆ executed := by simpa using h1.2
        exact ⟨h1.1, h2.1, fun d hd => h2.2 hd⟩
      have hrs_ne : readySet g sorted executed ≠ [] := by
        have hex : ∃ m ∈ keysG g, m ∉ executed := by
          by_contra hc
          push_neg at hc
          have : (keysG g).Subperm executed :=
            hwf.1.subperm (fun x hx => hc x hx)
          have := this.length_le
          omega
        obtain ⟨n, hnk, hne, hnr⟩ := exists_ready g hwf hnc executed hex
        have hns : n ∈ sorted := hperm.mem_iff.mpr hnk
        have : n ∈ readySet g sorted executed := by
          refine List.mem_filter.mpr ⟨hns, ?_⟩
          simp only [decide_eq_true_eq]
          exact ⟨hne, fun d hd => hnr d hd⟩
        exact List.ne_nil_of_mem this
      have hrs_nodup : (readySet g sorted executed).Nodup := hsnd.filter _
      have hnd' : (executed ++ readySet g sorted executed).Nodup := by
        rw [List.nodup_append]
        exact ⟨hnd, hrs_nodup, fun a ha hb => (hrs_mem a hb).2.1 ha⟩
      have hsub' : ∀ x ∈ executed ++ readySet g sorted executed, x ∈ sorted := by
        intro x hx
        rcases List.mem_append.mp hx with h | h
        · exact hsub x h
        · exact (hrs_mem x h).1
      have hclosed' : ∀ m ∈ executed ++ readySet g sorted executed,
          ∀ d ∈ depsOf g m, d ∈ executed ++ readySet g sorted executed := by
        intro m hm d hd
        rcases List.mem_append.mp hm with h | h
        · exact List.mem_append.mpr (Or.inl (hclosed m h d hd))
        · exact List.mem_append.mpr (Or.inl ((hrs_mem m h).2.2 d hd))
      have hlen' : sorted.length <
          (executed ++ readySet g sorted executed).length + fuel := by
        rw [List.length_append]
        have : 0 < (readySet g sorted executed).length :=
          List.length_pos.mpr hrs_ne
        omega
      obtain ⟨ih1, ih2, ih3⟩ := ih (executed ++ readySet g sorted executed)
        hnd' hsub' hclosed' hlen'
      rw [hws]
      refine ⟨?_, ?_, ?_⟩
      · intro k hk
        cases k with
        | zero => simp
        | succ k =>
          have hk' : k < (wavesLoop g sorted fuel
              (executed ++ readySet g sorted executed)).length := by
            simpa using hk
          have := ih1 k hk'
          simp only [List.get_cons_succ, List.take_succ_cons, List.flatten_cons,
            ← List.append_assoc]
          exact this
      · rw [List.flatten_cons, ← List.append_assoc]
        exact ih2
      · intro w hw
        rcases List.mem_cons.mp hw with h | h
        · exact h ▸ hrs_ne
        · exact ih3 w h
    · have hws : wavesLoop g sorted (fuel + 1) executed = [] := by
        rw [wavesLoop, if_neg hcond]
      rw [hws]
      refine ⟨?_, ?_, ?_⟩
      · intro k hk
        exact absurd hk (by simp)
      · rw [List.flatten_nil, List.append_nil]
        exact (hnd.subperm (fun x hx => hsub x hx)).perm_of_length_le (by omega)
      · intro w hw
        cases hw

/-- Membership in the flatten of a prefix locates an earlier block. -/
theorem mem_take_flatten {α : Type _} (ws : List (List α)) (k : Nat) (d : α)
    (hd : d ∈ (ws.take k).flatten) :
    ∃ j, ∃ hj : j < ws.length, j < k ∧ d ∈ ws.get ⟨j, hj⟩ := by
  rcases List.mem_flatten.mp hd with ⟨l, hl, hdl⟩
  rcases List.mem_iff_get.mp hl with ⟨⟨j, hjt⟩, hje⟩
  have hlen : (ws.take k).length = min k ws.length := List.length_take _ _
  have hjk : j < k := by omega
  have hjl : j < ws.length := by omega
  have hget : ws.get ⟨j, hjl⟩ = l := by
    rw [← hje]
    exact List.get_take ws (by omega) hjk
  exact ⟨j, hjl, hjk, hget ▸ hdl⟩

/-- C2: on an acyclic dependency graph over the enabled plugins, the
orchestrator runs in waves: wave k is exactly the ready set over the
union of the earlier waves (so no runnable plugin is deferred), every
wave is non-empty, the concatenation of the waves is a permutation of
the sorted plugin list (the loop terminates exactly when the executed
set covers it), and every dependency of a wave-k plugin completed in a
strictly earlier wave. -/
theorem orchestrate_waves_spec (config : List PluginConf)
    (hnd : ((config.filter (fun p => p.enabled)).map PluginConf.name).Nodup)
    (hnc : ¬hasCycle (build_dependency_graph (config.filter (fun p => p.enabled)))) :
    ∃ sorted ws,
      topological_sort (build_dependency_graph
        (config.filter (fun p => p.enabled))) = .ok sorted
      ∧ orchestrate config = .ok ws
      ∧ (∀ k (hk : k < ws.length), ws.get ⟨k, hk⟩ =
          readySet (build_dependency_graph (config.filter (fun p => p.enabled)))
            sorted ((ws.take k).flatten))
      ∧ ws.flatten.Perm sorted
      ∧ (∀ w ∈ ws, w ≠ [])
      ∧ (∀ k (hk : k < ws.length), ∀ n ∈ ws.get ⟨k, hk⟩,
          ∀ d ∈ depsOf (build_dependency_graph
            (config.filter (fun p => p.enabled))) n,
          ∃ j, ∃ hj : j < ws.length, j < k ∧ d ∈ ws.get ⟨j, hj⟩) := by
  have hwf : wfGraph (build_dependency_graph (config.filter (fun p => p.enabled))) :=
    wf_build _ hnd
  obtain ⟨sorted, hok, hperm, hgood, hpre⟩ :=
    (topological_sort_spec _ hwf).1 hnc
  obtain ⟨w1, w2, w3⟩ := wavesLoop_spec _ sorted hwf hnc hperm
    (sorted.length + 1) [] List.nodup_nil (by simp) (by simp) (by omega)
  refine ⟨sorted,
    wavesLoop (build_dependency_graph (config.filter (fun p => p.enabled)))
      sorted (sorted.length + 1) [], hok, ?_, ?_, ?_, w3, ?_⟩
  · simp only [orchestrate]
    rw [hok]
  · intro k hk
    have := w1 k hk
    simpa using this
  · simpa using w2
  · intro k hk n hn d hd
    have hrk := w1 k hk
    rw [hrk] at hn
    have h2 := List.mem_filter.mp hn
    have h3 : ¬ n ∈ ((wavesLoop (build_dependency_graph
          (config.filter (fun p => p.enabled))) sorted
          (sorted.length + 1) []).take k).flatten
        ∧ depsOf (build_dependency_graph (config.filter (fun p => p.enabled))) n ⊆
          ((wavesLoop (build_dependency_graph (config.filter (fun p => p.enabled)))
            sorted (sorted.length + 1) []).take k).flatten := by
      simpa using h2.2
    exact mem_take_flatten _ k d (h3.2 hd)

/-- Diamond-shaped configuration used by the C2 witness. -/
def pa : PluginConf := ⟨"a", true, some true, none⟩

/-- Depends on `pa`. -/
def pb : PluginConf := ⟨"b", true, some true, some ["a"]⟩

/-- Depends on `pa`. -/
def pc : PluginConf := ⟨"c", true, some true, some ["a"]⟩

/-- Depends on `pb` and `pc`. -/
def pd : PluginConf := ⟨"d", true, some true, some ["b", "c"]⟩

/-- Closed witness for C2 at the diamond configuration: three waves,
jointly a permutation of the sorted plugins. -/
theorem orchestrate_waves_spec_witness :
    orchestrate [pa, pb, pc, pd] = .ok [["a"], ["b", "c"], ["d"]]
    ∧ ([["a"], ["b", "c"], ["d"]] : List (List String)).flatten.Perm
        ["a", "b", "c", "d"] := by
  have hok : topological_sort (build_dependency_graph
      ([pa, pb, pc, pd].filter (fun p => p.enabled))) = .ok ["a", "b", "c", "d"] := by
    rfl
  have hnc : ¬hasCycle (build_dependency_graph
      ([pa, pb, pc, pd].filter (fun p => p.enabled))) := by
    intro hc
    have herr := (topological_sort_spec _ (wf_build _ (by decide))).2 hc
    rw [herr] at hok
    cases hok
  obtain ⟨sorted, ws, hok2, hw, _, hperm, _, _⟩ :=
    orchestrate_waves_spec [pa, pb, pc, pd] (by decide) hnc
  have hs : sorted = ["a", "b", "c", "d"] := Except.ok.inj (hok2.symm.trans hok)
  have hwconc : orchestrate [pa, pb, pc, pd] = .ok [["a"], ["b", "c"], ["d"]] := by
    rfl
  have hws : ws = [["a"], ["b", "c"], ["d"]] := Except.ok.inj (hw.symm.trans hwconc)
  subst hs hws
  exact ⟨hw, hperm⟩

/-- A sublist of a duplicate-free list preserves relative order of its
members. -/
theorem sublist_indexOf_lt {s l : List String} (hs : s.Sublist l)
    (hnd : l.Nodup) {u v : String} (hu : u ∈ s) (hv : v ∈ s)
    (hlt : l.indexOf u < l.indexOf v) : s.indexOf u < s.indexOf v := by
  induction hs with
  | slnil => cases hu
  | cons x hs ih =>
    have hnd2 := (List.nodup_cons.mp hnd).2
    have hxl := (List.nodup_cons.mp hnd).1
    have hun : u ≠ x := fun he => hxl (he ▸ hs.subset hu)
    have hvn : v ≠ x := fun he => hxl (he ▸ hs.subset hv)
    rw [List.indexOf_cons_ne _ (Ne.symm hun), List.indexOf_cons_ne _ (Ne.symm hvn)]
      at hlt
    exact ih hnd2 hu hv (by omega)
  | @cons₂ l1 l2 x hs ih =>
    have hnd2 := (List.nodup_cons.mp hnd).2
    by_cases hux : u = x
    · subst hux
      have hvx : v ≠ u := by
        intro he
        subst he
        omega
      rw [List.indexOf_cons_self, List.indexOf_cons_ne _ (Ne.symm hvx)]
      omega
    · have hvx : v ≠ x := by
        intro he
        subst he
        rw [List.indexOf_cons_self] at hlt
        omega
      rw [List.indexOf_cons_ne _ (Ne.symm hux), List.indexOf_cons_ne _ (Ne.symm hvx)]
        at hlt ⊢
      have hu2 : u ∈ l1 := by
        rcases List.mem_cons.mp hu with he | h
        · exact absurd he hux
        · exact h
      have hv2 : v ∈ l1 := by
        rcases List.mem_cons.mp hv with he | h
        · exact absurd he hvx
        · exact h
      have := ih hnd2 hu2 hv2 (by omega)
      omega

/-- Tie-order invariant: two distinct nodes with the same dependency set
keep their input-order relation, both inside the result list and inside
the pending queue. -/
def TieProp (g : Graph) (q res : List String) : Prop :=
  ∀ u v, u ∈ keysG g → v ∈ keysG g → u ≠ v → depsOf g u = depsOf g v →
    (keysG g).indexOf u < (keysG g).indexOf v →
    ((v ∈ res → u ∈ res ∧ res.indexOf u < res.indexOf v)
     ∧ (v ∈ q → u ∈ res ∨ (u ∈ q ∧ q.indexOf u < q.indexOf v)))

/-- The tie-order invariant at loop entry. -/
theorem tieProp_init (g : Graph) (hwf : wfGraph g) :
    TieProp g ((keysG g).filter (fun n => initIndeg g n = 0)) [] := by
  intro u v hu hv hne hdeps hklt
  constructor
  · intro hv0
    cases hv0
  · intro hvq
    have hvz : initIndeg g v = 0 := by
      have := (List.mem_filter.mp hvq).2
      simpa using this
    have huz : initIndeg g u = 0 := by
      simp only [initIndeg] at hvz ⊢
      rw [hdeps]
      exact hvz
    have huq : u ∈ (keysG g).filter (fun n => initIndeg g n = 0) :=
      List.mem_filter.mpr ⟨hu, by simpa using huz⟩
    exact Or.inr ⟨huq,
      sublist_indexOf_lt (List.filter_sublist _) hwf.1 huq hvq hklt⟩

set_option maxHeartbeats 1000000 in
/-- One pop of the Kahn queue preserves the tie-order invariant. -/
theorem tieProp_step (g : Graph) (hwf : wfGraph g) (n : String)
    (rest res : List String) (indeg : String → Nat)
    (hInv : KahnInv g (n :: rest) res indeg) (hTie : TieProp g (n :: rest) res) :
    TieProp g (relax n g indeg rest).2 (res ++ [n]) := by
  have hnd : (keysG g).Nodup := hwf.1
  have hnq : n ∈ n :: rest := List.mem_cons_self _ _
  have hnres : n ∉ res := hInv.q_disj n hnq
  have hqn := List.nodup_cons.mp hInv.q_nodup
  have hq' : (relax n g indeg rest).2 =
      rest ++ (g.filter (fun p => n ∈ p.2 ∧ indeg p.1 - 1 = 0)).map (fun p => p.1) :=
    relax_snd n g indeg rest hnd
  set app := (g.filter (fun p => n ∈ p.2 ∧ indeg p.1 - 1 = 0)).map (fun p => p.1)
    with happ_def
  have happ : ∀ m, m ∈ app ↔ (m ∈ keysG g ∧ n ∈ depsOf g m ∧ indeg m - 1 = 0) := by
    intro m
    constructor
    · intro hm
      rcases List.mem_map.mp hm with ⟨p, hpf, hpe⟩
      have hpg : p ∈ g := List.mem_filter.mp hpf |>.1
      have hpc' : n ∈ p.2 ∧ indeg p.1 - 1 = 0 := by
        simpa using (List.mem_filter.mp hpf).2
      have hdep : depsOf g p.1 = p.2 := depsOf_eq_of_mem g hnd p.1 p.2 hpg
      subst hpe
      exact ⟨List.mem_map.mpr ⟨p, hpg, rfl⟩, hdep ▸ hpc'.1, hpc'.2⟩
    · rintro ⟨hmk, hmd, hmz⟩
      obtain ⟨ds, hds⟩ := mem_keysG_exists g m hmk
      have hdep : depsOf g m = ds := depsOf_eq_of_mem g hnd m ds hds
      refine List.mem_map.mpr ⟨(m, ds), List.mem_filter.mpr ⟨hds, ?_⟩, rfl⟩
      simp only [decide_eq_true_eq]
      exact ⟨hdep ▸ hmd, hmz⟩
  have hF1 : ∀ m, n ∈ depsOf g m → m ∉ res := by
    intro m hmd hmr
    obtain ⟨s, t, hst⟩ := List.append_of_mem hmr
    have := hInv.good s m t hst n hmd
    exact hnres (hst ▸ List.mem_append.mpr (Or.inl this))
  have hF2 : ∀ m ∈ n :: rest, n ∉ depsOf g m := by
    intro m hm hmd
    exact hnres (hInv.q_ready m hm n hmd)
  intro u v hu hv hne hdeps hklt
  have hold := hTie u v hu hv hne hdeps hklt
  constructor
  · intro hvres'
    rcases List.mem_append.mp hvres' with hvr | hvn
    · obtain ⟨hur, hlt⟩ := hold.1 hvr
      refine ⟨List.mem_append.mpr (Or.inl hur), ?_⟩
      rw [List.indexOf_append_of_mem hur, List.indexOf_append_of_mem hvr]
      exact hlt
    · have hvn' : v = n := by simpa using hvn
      subst hvn'
      rcases hold.2 hnq with hur | ⟨_, hqlt⟩
      · refine ⟨List.mem_append.mpr (Or.inl hur), ?_⟩
        rw [List.indexOf_append_of_mem hur,
          List.indexOf_append_of_not_mem hnres, List.indexOf_cons_self]
        have := List.indexOf_lt_length.mpr hur
        omega
      · rw [List.indexOf_cons_self] at hqlt
        omega
  · intro hvq'
    rw [hq'] at hvq'
    rcases List.mem_append.mp hvq' with hvrest | hvapp
    · rcases hold.2 (List.mem_cons_of_mem _ hvrest) with hur | ⟨huq, hqlt⟩
      · exact Or.inl (List.mem_append.mpr (Or.inl hur))
      · rcases List.mem_cons.mp huq with hun | hurest
        · subst hun
          exact Or.inl (List.mem_append.mpr (Or.inr (by simp)))
        · have hvne : v ≠ n := fun he => hqn.1 (he ▸ hvrest)
          have hune : u ≠ n := fun he => hqn.1 (he ▸ hurest)
          rw [List.indexOf_cons_ne _ (Ne.symm hune),
            List.indexOf_cons_ne _ (Ne.symm hvne)] at hqlt
          refine Or.inr ⟨by rw [hq']; exact List.mem_append.mpr (Or.inl hurest), ?_⟩
          rw [hq', List.indexOf_append_of_mem hurest,
            List.indexOf_append_of_mem hvrest]
          omega
    · obtain ⟨hvk, hvd, hvz⟩ := (happ v).mp hvapp
      have hud : n ∈ depsOf g u := hdeps ▸ hvd
      have hiuv : indeg u = indeg v := by
        rw [hInv.indeg_eq u hu, hInv.indeg_eq v hv, hdeps]
      have huz : indeg u - 1 = 0 := by rw [hiuv]; exact hvz
      have huapp : u ∈ app := (happ u).mpr ⟨hu, hud, huz⟩
      have hurest : u ∉ rest := fun hr => hF2 u (List.mem_cons_of_mem _ hr) hud
      have hvrest : v ∉ rest := fun hr => hF2 v (List.mem_cons_of_mem _ hr) hvd
      have happ_sub : app.Sublist (keysG g) := (List.filter_sublist _).map _
      have hlt : app.indexOf u < app.indexOf v :=
        sublist_indexOf_lt happ_sub hnd huapp hvapp hklt
      refine Or.inr ⟨by rw [hq']; exact List.mem_append.mpr (Or.inr huapp), ?_⟩
      rw [hq', List.indexOf_append_of_not_mem hurest,
        List.indexOf_append_of_not_mem hvrest]
      omega

/-- The Kahn loop preserves the tie-order invariant to the end. -/
theorem kahnLoop_tie (g : Graph) (hwf : wfGraph g) : ∀ (fuel : Nat)
    (q res : List String) (indeg : String → Nat),
    KahnInv g q res indeg → TieProp g q res →
    g.length < res.length + fuel →
    TieProp g [] (kahnLoop g fuel q indeg res) := by
  intro fuel
  induction fuel with
  | zero =>
    intro q res indeg hInv _ hlen
    exfalso
    have hsub : res.Subperm (keysG g) :=
      (hInv.res_nodup).subperm (fun x hx => hInv.res_keys x hx)
    have h1 := hsub.length_le
    have h2 : (keysG g).length = g.length := List.length_map _ _
    omega
  | succ fuel ih =>
    intro q res indeg hInv hTie hlen
    cases q with
    | nil =>
      intro u v hu hv hne hdeps hklt
      exact ⟨(hTie u v hu hv hne hdeps hklt).1,
        fun hv0 => absurd hv0 (List.not_mem_nil v)⟩
    | cons n rest =>
      rw [kahnLoop]
      exact ih _ _ _ (kahnInv_step g hwf n rest res indeg hInv)
        (tieProp_step g hwf n rest res indeg hInv hTie)
        (by simp only [List.length_append, List.length_singleton]; omega)

/-- C3: a cyclic graph makes `topological_sort` fail with the dedicated
cyclic-dependency error, and `orchestrate` propagates that failure before
forming any wave (so no plugin scan is invoked); on an acyclic graph
`topological_sort` returns an ordering of all nodes that respects every
edge; and ties (distinct nodes with the same dependency set) are broken
by input order. -/
theorem cyclic_dependency_and_topological_order_spec :
    (∀ g : Graph, wfGraph g → hasCycle g →
      topological_sort g = .error "Cyclic dependency detected among plugins!")
    ∧ (∀ config : List PluginConf,
        ((config.filter (fun p => p.enabled)).map PluginConf.name).Nodup →
        hasCycle (build_dependency_graph (config.filter (fun p => p.enabled))) →
        orchestrate config = .error "Cyclic dependency detected among plugins!")
    ∧ (∀ g : Graph, wfGraph g → ¬hasCycle g →
        ∃ res, topological_sort g = .ok res ∧ res.Perm (keysG g) ∧ EdgeOrder g res)
    ∧ (∀ (g : Graph) (res : List String), wfGraph g →
        topological_sort g = .ok res →
        ∀ u v, u ∈ keysG g → v ∈ keysG g → u ≠ v → depsOf g u = depsOf g v →
        (keysG g).indexOf u < (keysG g).indexOf v →
        res.indexOf u < res.indexOf v) := by
  refine ⟨?_, ?_, ?_, ?_⟩
  · intro g hwf hcyc
    exact (topological_sort_spec g hwf).2 hcyc
  · intro config hnd hcyc
    simp only [orchestrate]
    rw [(topological_sort_spec _ (wf_build _ hnd)).2 hcyc]
  · intro g hwf hnc
    obtain ⟨res, hok, hperm, hgood, _⟩ := (topological_sort_spec g hwf).1 hnc
    exact ⟨res, hok, hperm, hgood⟩
  · intro g res hwf hok u v hu hv hne hdeps hklt
    obtain ⟨R, indegF, hrun, hInvF, _⟩ := kahnLoop_spec g hwf (g.length + 1)
      ((keysG g).filter (fun n => initIndeg g n = 0)) [] (initIndeg g)
      (kahnInv_init g hwf) (by simp)
    have hts : topological_sort g =
        if R.length = g.length then .ok R
        else .error "Cyclic dependency detected among plugins!" := by
      simp only [topological_sort]
      rw [hrun]
    rw [hts] at hok
    by_cases hlen : R.length = g.length
    · rw [if_pos hlen] at hok
      have hres : R = res := Except.ok.inj hok
      subst hres
      have htie := kahnLoop_tie g hwf (g.length + 1)
        ((keysG g).filter (fun n => initIndeg g n = 0)) [] (initIndeg g)
        (kahnInv_init g hwf) (tieProp_init g hwf) (by simp)
      rw [hrun] at htie
      have hsub : R.Subperm (keysG g) :=
        hInvF.res_nodup.subperm (fun x hx => hInvF.res_keys x hx)
      have hkl : (keysG g).length = g.length := List.length_map _ _
      have hperm : R.Perm (keysG g) := hsub.perm_of_length_le (by omega)
      have hvR : v ∈ R := hperm.mem_iff.mpr hv
      exact ((htie u v hu hv hne hdeps hklt).1 hvR).2
    · rw [if_neg hlen] at hok
      cases hok

/-- Two-node cyclic graph. -/
def gAB : Graph := [("a", ["b"]), ("b", ["a"])]

/-- Acyclic graph with an equal-dependency tie between u and v. -/
def gUV : Graph := [("x", []), ("u", ["x"]), ("v", ["x"])]

/-- Mutually strict-dependent enabled plugins (the S3 scenario). -/
def cy1 : PluginConf := ⟨"a", true, some true, some ["b"]⟩

/-- Second half of the two-cycle. -/
def cy2 : PluginConf := ⟨"b", true, some true, some ["a"]⟩

/-- The two-node graph has a cycle: alternate between the nodes. -/
theorem gAB_hasCycle : hasCycle gAB := by
  refine ⟨fun t => if t % 2 = 0 then "a" else "b", ?_⟩
  intro t
  rcases Nat.mod_two_eq_zero_or_one t with h | h
  · have h1 : (t + 1) % 2 = 1 := by omega
    simp [h, h1, depsOf, gAB, List.find?]
  · have h1 : (t + 1) % 2 = 0 := by omega
    simp [h, h1, depsOf, gAB, List.find?]

/-- Closed witness for C3: the concrete two-cycle fails with the
dedicated error both in `topological_sort` and in `orchestrate`, the
concrete acyclic graph is ordered completely, and the concrete
equal-dependency tie keeps input order. -/
theorem cyclic_dependency_and_topological_order_spec_witness :
    topological_sort gAB = .error "Cyclic dependency detected among plugins!"
    ∧ orchestrate [cy1, cy2] = .error "Cyclic dependency detected among plugins!"
    ∧ (["x", "u", "v"] : List String).Perm (keysG gUV)
    ∧ (["x", "u", "v"] : List String).indexOf "u" <
        (["x", "u", "v"] : List String).indexOf "v" := by
  have hbuild : build_dependency_graph ([cy1, cy2].filter (fun p => p.enabled)) =
      gAB := by rfl
  refine ⟨?_, ?_, ?_, ?_⟩
  · exact cyclic_dependency_and_topological_order_spec.1 gAB
      ⟨by decide, by decide⟩ gAB_hasCycle
  · exact cyclic_dependency_and_topological_order_spec.2.1 [cy1, cy2] (by decide)
      (by rw [hbuild]; exact gAB_hasCycle)
  · have hok : topological_sort gUV = .ok ["x", "u", "v"] := by rfl
    have hnc : ¬hasCycle gUV := by
      intro hc
      have herr := cyclic_dependency_and_topological_order_spec.1 gUV
        ⟨by decide, by decide⟩ hc
      rw [herr] at hok
      cases hok
    obtain ⟨res, hok2, hperm, _⟩ :=
      cyclic_dependency_and_topological_order_spec.2.2.1 gUV
        ⟨by decide, by decide⟩ hnc
    have hres : res = ["x", "u", "v"] := Except.ok.inj (hok2.symm.trans hok)
    subst hres
    exact hperm
  · exact cyclic_dependency_and_topological_order_spec.2.2.2 gUV ["x", "u", "v"]
      ⟨by decide, by decide⟩ (by rfl) "u" "v" (by decide) (by decide) (by decide)
      (by decide) (by decide)

/-!
Section: Collector (src/core/collector.py)

Database state is a list of rows plus the next value of the id sequence;
`json.dumps` of meta dicts and `datetime.now()` timestamps are carried as
opaque values (a string and a counter) since nothing reads them back.
-/

/-- The sentinel list of `is_meaningful_entry`, in source order. -/
def collectorSentinels : List (List Char) :=
  [pys "-", pys "", pys "None", pys "null", pys "0"]

/-- Embeds `is_meaningful_entry(entry, important_fields)` of
src/core/collector.py: not every important field strips to a sentinel. -/
def is_meaningful_entry (entry : PyDict) (important_fields : List String) : Bool :=
  !(important_fields.all (fun k =>
    memB (pyStrip (pyStr (dgetD entry k (.pStr (pys "-"))))) collectorSentinels))

/-- The keep condition of both branches of `process_temp_files`:
`not important_fields or is_meaningful_entry(entry, important_fields)`. -/
def keepEntry (important_fields : List String) (entry : PyDict) : Bool :=
  important_fields.isEmpty || is_meaningful_entry entry important_fields

/-- The filtering stage of `process_temp_files`: only kept entries reach
the per-entry persistence loop. -/
def filterMeaningful (important_fields : List String) (entries : List PyDict) :
    List PyDict :=
  entries.filter (keepEntry important_fields)

/-- One row of the services table, with the columns the collector
writes (meta and created_at omitted: opaque to every query used). -/
structure SvcRow where
  id : Nat
  host_id : Nat
  port : Int
  protocol : PyVal
  service_name : PyVal
  product : Option PyVal
  version : Option PyVal
  banner : Option PyVal
  plugin : String
deriving DecidableEq, Repr

/-- A table plus the id sequence. -/
abbrev SvcDB := List SvcRow × Nat

/-- The WHERE clause of the service SELECT: the identity columns. -/
def svcPred (host_id : Nat) (port : Int) (protocol service_name : PyVal)
    (plugin : String) (r : SvcRow) : Bool :=
  r.host_id = host_id ∧ r.port = port ∧ r.protocol = protocol
    ∧ r.service_name = service_name ∧ r.plugin = plugin

/-- Embeds `get_or_create_service` of src/core/collector.py: select the
first row with the identity `(host_id, port, protocol, service_name,
plugin)`, else insert with a fresh sequence id. -/
def get_or_create_service (db : SvcDB) (host_id : Nat) (port : Int)
    (protocol service_name : PyVal) (product version banner : Option PyVal)
    (plugin : String) : Nat × SvcDB :=
  match db.1.find? (svcPred host_id port protocol service_name plugin) with
  | some r => (r.id, db)
  | none =>
    (db.2, (db.1 ++ [⟨db.2, host_id, port, protocol, service_name,
      product, version, banner, plugin⟩], db.2 + 1))

/-- Equation: the found case. -/
theorem gocs_found {db : SvcDB} {host_id : Nat} {port : Int}
    {protocol service_name : PyVal} {product version banner : Option PyVal}
    {plugin : String} {r : SvcRow}
    (hf : db.1.find? (svcPred host_id port protocol service_name plugin) = some r) :
    get_or_create_service db host_id port protocol service_name
      product version banner plugin = (r.id, db) := by
  rw [get_or_create_service, hf]

/-- Equation: the inserting case. -/
theorem gocs_notfound {db : SvcDB} {host_id : Nat} {port : Int}
    {protocol service_name : PyVal} {product version banner : Option PyVal}
    {plugin : String}
    (hf : db.1.find? (svcPred host_id port protocol service_name plugin) = none) :
    get_or_create_service db host_id port protocol service_name
      product version banner plugin =
      (db.2, (db.1 ++ [⟨db.2, host_id, port, protocol, service_name,
        product, version, banner, plugin⟩], db.2 + 1)) := by
  rw [get_or_create_service, hf]

/-- Python `str.isdigit()` for the characters the collector sees. -/
def pyIsDigit (s : List Char) : Bool := !s.isEmpty && s.all Char.isDigit

/-- Numeric value of a digit string (`int(...)` on an isdigit string). -/
def digitsVal (s : List Char) : Nat :=
  s.foldl (fun acc c => acc * 10 + (c.toNat - '0'.toNat)) 0

/-- The `port` computation of the persistence loop:
`int(item.get("port", 0)) if "port" in item and str(item["port"]).isdigit()
else None`. -/
def parsePort (item : PyDict) : Option Int :=
  match dget item "port" with
  | none => none
  | some v => if pyIsDigit (pyStr v) then some (digitsVal (pyStr v)) else none

/-- Truthiness of an optional value (`item.get(k)` used in an `if`). -/
def pyTruthyOpt : Option PyVal → Bool
  | none => false
  | some v => pyTruthy v

/-- Embeds the service part of the per-entry persistence step of
`process_temp_files`: `service_id = None`, then
`if port and protocol and service_name: service_id = get_or_create_service(...)`. -/
def processServicePart (db : SvcDB) (host_id : Nat) (item : PyDict)
    (plugin_name : String) : Option Nat × SvcDB :=
  match parsePort item, dget item "protocol", dget item "service_name" with
  | some p, some pr, some sn =>
    if p ≠ 0 ∧ pyTruthy pr ∧ pyTruthy sn then
      let r := get_or_create_service db host_id p pr sn (dget item "product")
        (dget item "version") (dget item "banner") plugin_name
      (some r.1, r.2)
    else (none, db)
  | _, _, _ => (none, db)

/-- The specification reading of the service-creation condition, written
from the spec words: port, protocol and service_name all present and
non-sentinel (section 4.1 sentinels).  Compared against the code, which
tests Python truthiness instead. -/
def serviceCondSpec (item : PyDict) : Bool :=
  ["port", "protocol", "service_name"].all (fun k =>
    match dget item k with
    | none => false
    | some v => !(memB (pyStrip (pyStr v)) collectorSentinels))

/-- The identity key of a service row. -/
def svcKey (r : SvcRow) : Nat × Int × PyVal × PyVal × String :=
  (r.host_id, r.port, r.protocol, r.service_name, r.plugin)

/-!
Section: Collector CLI dispatch (src/core/collector.py `__main__`) and collect()
-/

/-- Outcome of opening and JSON-parsing the manifest file. -/
inductive ManifestRead where
  | parseError
  | noPaths
  | paths (tf : List PyDict)
deriving Repr

/-- Embeds the `__main__` dispatch of src/core/collector.py.  The result
is the process exit status paired with whether an error was logged.
`purgeExit` and `tempExit` abstract the exit status of `collect(...)`
(zero unless the database layer calls `exit(1)`); the failing paths of
the claim never reach `collect`. -/
def collector_main (purge_only : Bool) (temp_file : Option (List Char))
    (exists_ : List Char → Bool) (read : List Char → ManifestRead)
    (purgeExit tempExit : Nat) : Nat × Bool :=
  if purge_only then (purgeExit, false)
  else
    match temp_file with
    | some p =>
      if exists_ p then
        match read p with
        | .parseError => (0, true)
        | .noPaths => (1, true)
        | .paths _ => (tempExit, false)
      else (0, true)
    | none => (0, true)

/-!
Section: Target registry (src/core/registry.py)
-/

/-- One row of the registry table; `meta` carries the `json.dumps`
string, timestamps are an abstract counter. -/
structure RegRow where
  id : Nat
  target_type : PyVal
  target_value : PyVal
  port : Option PyVal
  protocol : Option PyVal
  source_plugin : Option PyVal
  status : PyVal
  tags : List PyVal
  meta : List Char
  created_at : Nat
  updated_at : Nat
deriving DecidableEq, Repr

/-- Registry table plus id sequence. -/
abbrev RegDB := List RegRow × Nat

/-- The conflict tuple of a registry row. -/
def regKey (r : RegRow) : PyVal × PyVal × Option PyVal × Option PyVal :=
  (r.target_type, r.target_value, r.port, r.protocol)

/-- The conflict test: the row carries the given tuple. -/
def regTuplePred (target_type target_value : PyVal)
    (port protocol : Option PyVal) (r : RegRow) : Bool :=
  regKey r = (target_type, target_value, port, protocol)

/-- Embeds `add_target` of src/core/registry.py: INSERT with
`ON CONFLICT (target_type, target_value, port, protocol) DO UPDATE SET
status, updated_at RETURNING id`.  Modelled from the spec: the registry
DDL (the unique index backing the conflict target) is not under src/;
the spec invariant makes the table unique by that tuple, so a conflict
is equality on the four columns. -/
def add_target (db : RegDB) (target_type target_value : PyVal)
    (port protocol source_plugin : Option PyVal) (tags : List PyVal)
    (meta : List Char) (status : PyVal) (now : Nat) : Nat × RegDB :=
  match db.1.find? (regTuplePred target_type target_value port protocol) with
  | some r =>
    (r.id, (db.1.map (fun r2 =>
      if r2.id = r.id then { r2 with status := status, updated_at := now }
      else r2), db.2))
  | none =>
    (db.2, (db.1 ++ [⟨db.2, target_type, target_value, port, protocol,
      source_plugin, status, tags, meta, now, now⟩], db.2 + 1))

/-- Reads the status of the row with the given tuple. -/
def get_status (db : RegDB) (target_type target_value : PyVal)
    (port protocol : Option PyVal) : Option PyVal :=
  (db.1.find? (regTuplePred target_type target_value port protocol)).map
    (fun r => r.status)

/-- Equation: the conflicting case. -/
theorem addt_found (db : RegDB) (target_type target_value : PyVal)
    (port protocol source_plugin : Option PyVal) (tags : List PyVal)
    (meta : List Char) (status : PyVal) (now : Nat) (r : RegRow)
    (hf : db.1.find? (regTuplePred target_type target_value port protocol) =
      some r) :
    add_target db target_type target_value port protocol source_plugin tags
      meta status now =
      (r.id, (db.1.map (fun r2 =>
        if r2.id = r.id then { r2 with status := status, updated_at := now }
        else r2), db.2)) := by
  rw [add_target, hf]

/-- Equation: the fresh-insert case. -/
theorem addt_notfound (db : RegDB) (target_type target_value : PyVal)
    (port protocol source_plugin : Option PyVal) (tags : List PyVal)
    (meta : List Char) (status : PyVal) (now : Nat)
    (hf : db.1.find? (regTuplePred target_type target_value port protocol) =
      none) :
    add_target db target_type target_value port protocol source_plugin tags
      meta status now =
      (db.2, (db.1 ++ [⟨db.2, target_type, target_value, port, protocol,
        source_plugin, status, tags, meta, now, now⟩], db.2 + 1)) := by
  rw [add_target, hf]

/-- Boolean membership coincides with list membership. -/
theorem memB_iff (x : List Char) (l : List (List Char)) :
    memB x l = true ↔ x ∈ l := by
  simp only [memB, List.any_eq_true, decide_eq_true_eq]
  constructor
  · rintro ⟨s, hs, rfl⟩
    exact hs
  · intro h
    exact ⟨x, h, rfl⟩

/-- C7: an entry is kept by the collector iff the important-field list is
empty or at least one important field strips to a non-sentinel value; in
particular, with a non-empty field list, an entry whose important fields
are all sentinels is dropped before persistence; and the filtering stage
passes exactly the kept entries. -/
theorem meaningfulness_filter_spec :
    (∀ (fields : List String) (entry : PyDict),
      keepEntry fields entry = true ↔
        (fields = [] ∨ ∃ k ∈ fields,
          ¬ pyStrip (pyStr (dgetD entry k (.pStr (pys "-")))) ∈ collectorSentinels))
    ∧ (∀ (fields : List String) (entry : PyDict), fields ≠ [] →
        (∀ k ∈ fields,
          pyStrip (pyStr (dgetD entry k (.pStr (pys "-")))) ∈ collectorSentinels) →
        keepEntry fields entry = false)
    ∧ (∀ (fields : List String) (entries : List PyDict) (entry : PyDict),
        entry ∈ filterMeaningful fields entries ↔
          (entry ∈ entries ∧ keepEntry fields entry = true)) := by
  have hmain : ∀ (fields : List String) (entry : PyDict),
      keepEntry fields entry = true ↔
        (fields = [] ∨ ∃ k ∈ fields,
          ¬ pyStrip (pyStr (dgetD entry k (.pStr (pys "-")))) ∈ collectorSentinels) := by
    intro fields entry
    simp only [keepEntry, is_meaningful_entry, Bool.or_eq_true, List.isEmpty_iff,
      Bool.not_eq_true']
    constructor
    · rintro (h | h)
      · exact Or.inl h
      · rcases List.all_eq_false.mp h with ⟨k, hk, hkf⟩
        refine Or.inr ⟨k, hk, fun hmem => ?_⟩
        rw [(memB_iff _ _).mpr hmem] at hkf
        exact hkf rfl
    · rintro (h | ⟨k, hk, hkn⟩)
      · exact Or.inl h
      · refine Or.inr (List.all_eq_false.mpr ⟨k, hk, ?_⟩)
        intro hb
        exact hkn ((memB_iff _ _).mp hb)
  refine ⟨hmain, ?_, ?_⟩
  · intro fields entry hne hall
    rcases hk : keepEntry fields entry with _ | _
    · rfl
    · rcases (hmain fields entry).mp hk with h | ⟨k, hkm, hkn⟩
      · exact absurd h hne
      · exact absurd (hall k hkm) hkn
  · intro fields entries entry
    simp [filterMeaningful, List.mem_filter]

/-- Closed witness for C7: a single-sentinel-field entry is dropped, the
empty field list keeps everything, and the filter stage reflects both. -/
theorem meaningfulness_filter_spec_witness :
    keepEntry ["port"] [("port", .pStr (pys "-"))] = false
    ∧ keepEntry [] [("port", .pStr (pys "-"))] = true
    ∧ ([("port", .pStr (pys "-"))] ∈
        filterMeaningful [] [[("port", .pStr (pys "-"))]]) := by
  refine ⟨?_, ?_, ?_⟩
  · exact meaningfulness_filter_spec.2.1 ["port"] [("port", .pStr (pys "-"))]
      (by decide) (by decide)
  · exact (meaningfulness_filter_spec.1 [] [("port", .pStr (pys "-"))]).mpr
      (Or.inl rfl)
  · exact (meaningfulness_filter_spec.2.2 [] [[("port", .pStr (pys "-"))]]
      [("port", .pStr (pys "-"))]).mpr ⟨by decide, (meaningfulness_filter_spec.1
        [] [("port", .pStr (pys "-"))]).mpr (Or.inl rfl)⟩

/-- C9 counterexample: with neither mode requested the process logs an
error but exits with status zero, and likewise when the manifest file
does not exist in non-purge mode — not the claimed non-zero exit. -/
theorem collector_main_exit_counterexample :
    collector_main false none (fun _ => false) (fun _ => .parseError) 0 0 = (0, true)
    ∧ collector_main false (some (pys "m.json")) (fun _ => false)
        (fun _ => .parseError) 0 0 = (0, true) := by
  exact ⟨rfl, rfl⟩

/-- C9 (amended): the dispatch logs an error and exits zero when neither
mode is requested, when the manifest file is missing, and when reading
or parsing it raises; it exits non-zero only when the manifest parses
but lacks the paths key; a present manifest with paths runs `collect`,
and purge mode wins whenever `--purge-only` is set. -/
theorem collector_main_dispatch_spec :
    (∀ ex rd pe te, collector_main false none ex rd pe te = (0, true))
    ∧ (∀ p ex rd pe te, ex p = false →
        collector_main false (some p) ex rd pe te = (0, true))
    ∧ (∀ p ex rd pe te, ex p = true → rd p = .parseError →
        collector_main false (some p) ex rd pe te = (0, true))
    ∧ (∀ p ex rd pe te, ex p = true → rd p = .noPaths →
        collector_main false (some p) ex rd pe te = (1, true))
    ∧ (∀ p ex rd pe te tf, ex p = true → rd p = .paths tf →
        collector_main false (some p) ex rd pe te = (te, false))
    ∧ (∀ tfo ex rd pe te, collector_main true tfo ex rd pe te = (pe, false)) := by
  refine ⟨?_, ?_, ?_, ?_, ?_, ?_⟩
  · intro ex rd pe te
    rfl
  · intro p ex rd pe te h
    simp [collector_main, h]
  · intro p ex rd pe te h hr
    simp [collector_main, h, hr]
  · intro p ex rd pe te h hr
    simp [collector_main, h, hr]
  · intro p ex rd pe te tf h hr
    simp [collector_main, h, hr]
  · intro tfo ex rd pe te
    rfl

/-- Closed witness for C9: the dispatch outcomes at concrete arguments. -/
theorem collector_main_dispatch_spec_witness :
    collector_main false (some (pys "m.json")) (fun _ => true)
      (fun _ => .noPaths) 0 0 = (1, true)
    ∧ collector_main false (some (pys "m.json")) (fun _ => true)
        (fun _ => .paths []) 0 7 = (7, false)
    ∧ collector_main true none (fun _ => true) (fun _ => .noPaths) 3 0 = (3, false) := by
  refine ⟨?_, ?_, ?_⟩
  · exact collector_main_dispatch_spec.2.2.2.1 (pys "m.json") (fun _ => true)
      (fun _ => .noPaths) 0 0 rfl rfl
  · exact collector_main_dispatch_spec.2.2.2.2.1 (pys "m.json") (fun _ => true)
      (fun _ => .paths []) 0 7 [] rfl rfl
  · exact collector_main_dispatch_spec.2.2.2.2.2 none (fun _ => true)
      (fun _ => .noPaths) 3 0

/-- Concrete entry showing the truthiness check: all three service
fields present, protocol is the sentinel `"-"`. -/
def itemSvc : PyDict :=
  [("port", .pStr (pys "80")), ("protocol", .pStr (pys "-")),
   ("service_name", .pStr (pys "http"))]

/-- C8 counterexample: the entry above fails the claimed present-and-non-
sentinel condition (protocol is the sentinel `"-"`), yet the collector
creates a service row for it, because the code only tests Python
truthiness of the three values. -/
theorem service_creation_sentinel_counterexample :
    serviceCondSpec itemSvc = false
    ∧ (processServicePart ([], 1) 7 itemSvc "nmap").1 = some 1
    ∧ (processServicePart ([], 1) 7 itemSvc "nmap").2.1 =
        [⟨1, 7, 80, .pStr (pys "-"), .pStr (pys "http"), none, none, none, "nmap"⟩] := by
  exact ⟨by decide, by decide, by decide⟩

/-- C8 (amended): a service row is created iff the entry has a port key
whose string form is all digits with a non-zero value and protocol and
service_name are present and truthy (non-empty; sentinels such as `"-"`
do not block creation); service identity is `(host_id, port, protocol,
service_name, plugin)`: a second call with the same identity returns the
same id and leaves the table untouched, and insertion preserves
uniqueness of the identity key. -/
theorem get_or_create_service_spec :
    (∀ (item : PyDict) (db : SvcDB) (host : Nat) (plugin : String),
      ((processServicePart db host item plugin).1.isSome = true ↔
        ((∃ p, parsePort item = some p ∧ p ≠ 0)
          ∧ pyTruthyOpt (dget item "protocol") = true
          ∧ pyTruthyOpt (dget item "service_name") = true)))
    ∧ (∀ (db : SvcDB) host port protocol service_name product version banner
        plugin product2 version2 banner2,
        (get_or_create_service
          (get_or_create_service db host port protocol service_name
            product version banner plugin).2
          host port protocol service_name product2 version2 banner2 plugin).1 =
          (get_or_create_service db host port protocol service_name
            product version banner plugin).1
        ∧ (get_or_create_service
            (get_or_create_service db host port protocol service_name
              product version banner plugin).2
            host port protocol service_name product2 version2 banner2 plugin).2 =
          (get_or_create_service db host port protocol service_name
            product version banner plugin).2)
    ∧ (∀ (db : SvcDB) host port protocol service_name product version banner
        plugin, (db.1.map svcKey).Nodup →
        (((get_or_create_service db host port protocol service_name
          product version banner plugin).2.1.map svcKey).Nodup)) := by
  refine ⟨?_, ?_, ?_⟩
  · intro item db host plugin
    rcases hp : parsePort item with _ | p <;>
      rcases hpr : dget item "protocol" with _ | pr <;>
        rcases hsn : dget item "service_name" with _ | sn <;>
          simp [processServicePart, hp, hpr, hsn, pyTruthyOpt]
    by_cases hz : p = 0
    · simp [hz]
    · by_cases h1 : pyTruthy pr = true <;> by_cases h2 : pyTruthy sn = true <;>
        simp [hz, h1, h2]
  · intro db host port protocol service_name product version banner plugin
      product2 version2 banner2
    rcases hf : db.1.find? (svcPred host port protocol service_name plugin)
      with _ | r
    · have hrow : ((db.1 ++ [(⟨db.2, host, port, protocol, service_name,
          product, version, banner, plugin⟩ : SvcRow)]).find?
          (svcPred host port protocol service_name plugin)) =
          some (⟨db.2, host, port, protocol, service_name,
            product, version, banner, plugin⟩ : SvcRow) := by
        rw [List.find?_append, hf]
        simp [List.find?, svcPred]
      rw [gocs_notfound hf, gocs_found hrow]
      exact ⟨rfl, rfl⟩
    · rw [gocs_found hf, gocs_found hf]
      exact ⟨rfl, rfl⟩
  · intro db host port protocol service_name product version banner plugin hnd
    rcases hf : db.1.find? (svcPred host port protocol service_name plugin)
      with _ | r
    · rw [gocs_notfound hf]
      simp only [List.map_append]
      rw [List.nodup_append]
      refine ⟨hnd, List.nodup_singleton _, ?_⟩
      intro a ha hb
      rcases List.mem_map.mp ha with ⟨r0, hr0, hre⟩
      have hne := List.find?_eq_none.mp hf r0 hr0
      simp only [svcPred, decide_eq_true_eq] at hne
      have hb' : a = svcKey (⟨db.2, host, port, protocol, service_name,
          product, version, banner, plugin⟩ : SvcRow) := by simpa using hb
      apply hne
      rw [← hre] at hb'
      refine ⟨congrArg (fun q : Nat × Int × PyVal × PyVal × String => q.1) hb',
        congrArg (fun q : Nat × Int × PyVal × PyVal × String => q.2.1) hb',
        congrArg (fun q : Nat × Int × PyVal × PyVal × String => q.2.2.1) hb',
        congrArg (fun q : Nat × Int × PyVal × PyVal × String => q.2.2.2.1) hb',
        congrArg (fun q : Nat × Int × PyVal × PyVal × String => q.2.2.2.2) hb'⟩
    · rw [gocs_found hf]
      exact hnd

/-- Closed witness for C8: one row after two identity-equal calls, same
id returned, identity uniqueness preserved. -/
theorem get_or_create_service_spec_witness :
    (get_or_create_service
      (get_or_create_service (([], 5) : SvcDB) 7 80 (.pStr (pys "tcp"))
        (.pStr (pys "http")) none none none "nmap").2
      7 80 (.pStr (pys "tcp")) (.pStr (pys "http")) none none none "nmap").1 = 5
    ∧ ((get_or_create_service (([], 5) : SvcDB) 7 80 (.pStr (pys "tcp"))
        (.pStr (pys "http")) none none none "nmap").2.1.map svcKey).Nodup := by
  constructor
  · have h := (get_or_create_service_spec.2.1 (([], 5) : SvcDB) 7 80
      (.pStr (pys "tcp")) (.pStr (pys "http")) none none none "nmap"
      none none none).1
    rw [h]
    decide
  · exact get_or_create_service_spec.2.2 (([], 5) : SvcDB) 7 80
      (.pStr (pys "tcp")) (.pStr (pys "http")) none none none "nmap" (by decide)

/-- C10: two `add_target` calls with the same conflict tuple leave
exactly one row with that tuple; both calls return the same row id; the
second call updates only status and updated_at, keeping source_plugin,
tags, meta and created_at from the first call; and a subsequent read of
the tuple yields the last-written status. -/
theorem add_target_upsert_spec :
    ∀ (db : RegDB) (tt tv : PyVal) (port protocol sp1 : Option PyVal)
      (tags1 : List PyVal) (meta1 : List Char) (st1 : PyVal) (now1 : Nat)
      (sp2 : Option PyVal) (tags2 : List PyVal) (meta2 : List Char)
      (st2 : PyVal) (now2 : Nat),
    (∀ r ∈ db.1, r.id < db.2) →
    (∀ r ∈ db.1, regKey r ≠ (tt, tv, port, protocol)) →
    (add_target db tt tv port protocol sp1 tags1 meta1 st1 now1).1 = db.2
    ∧ (add_target (add_target db tt tv port protocol sp1 tags1 meta1 st1 now1).2
        tt tv port protocol sp2 tags2 meta2 st2 now2).1 = db.2
    ∧ (add_target (add_target db tt tv port protocol sp1 tags1 meta1 st1 now1).2
        tt tv port protocol sp2 tags2 meta2 st2 now2).2.1 =
        db.1 ++ [⟨db.2, tt, tv, port, protocol, sp1, st2, tags1, meta1,
          now1, now2⟩]
    ∧ ((add_target (add_target db tt tv port protocol sp1 tags1 meta1 st1 now1).2
        tt tv port protocol sp2 tags2 meta2 st2 now2).2.1.filter
          (regTuplePred tt tv port protocol)).length = 1
    ∧ get_status (add_target (add_target db tt tv port protocol sp1 tags1
        meta1 st1 now1).2 tt tv port protocol sp2 tags2 meta2 st2 now2).2
        tt tv port protocol = some st2 := by
  intro db tt tv port protocol sp1 tags1 meta1 st1 now1 sp2 tags2 meta2 st2 now2
    hids hfresh
  have hf1 : db.1.find? (regTuplePred tt tv port protocol) = none := by
    rw [List.find?_eq_none]
    intro r hr
    simp only [regTuplePred, decide_eq_true_eq]
    exact hfresh r hr
  have hc1 := addt_notfound db tt tv port protocol sp1 tags1 meta1 st1 now1 hf1
  have hf2 : ((db.1 ++ [(⟨db.2, tt, tv, port, protocol, sp1, st1, tags1,
      meta1, now1, now1⟩ : RegRow)]).find? (regTuplePred tt tv port protocol)) =
      some (⟨db.2, tt, tv, port, protocol, sp1, st1, tags1, meta1,
        now1, now1⟩ : RegRow) := by
    rw [List.find?_append, hf1]
    simp [List.find?, regTuplePred, regKey]
  have hmap : ∀ (st : PyVal) (now : Nat),
      db.1.map (fun r2 =>
        if r2.id = (⟨db.2, tt, tv, port, protocol, sp1, st1, tags1, meta1,
          now1, now1⟩ : RegRow).id
        then { r2 with status := st, updated_at := now } else r2) = db.1 := by
    intro st now
    have hpt : ∀ r2 ∈ db.1, (if r2.id = (⟨db.2, tt, tv, port, protocol, sp1,
        st1, tags1, meta1, now1, now1⟩ : RegRow).id
        then { r2 with status := st, updated_at := now } else r2) = r2 := by
      intro r2 hr2
      have : r2.id ≠ db.2 := Nat.ne_of_lt (hids r2 hr2)
      rw [if_neg this]
    rw [List.map_congr_left hpt]
    exact List.map_id _
  have hc2 := addt_found
    (db.1 ++ [(⟨db.2, tt, tv, port, protocol, sp1, st1, tags1, meta1, now1,
      now1⟩ : RegRow)], db.2 + 1) tt tv port protocol sp2 tags2 meta2 st2 now2
    (⟨db.2, tt, tv, port, protocol, sp1, st1, tags1, meta1, now1,
      now1⟩ : RegRow) hf2
  rw [hc1]
  have htab : (add_target (db.1 ++ [(⟨db.2, tt, tv, port, protocol, sp1, st1,
      tags1, meta1, now1, now1⟩ : RegRow)], db.2 + 1) tt tv port protocol sp2
      tags2 meta2 st2 now2) =
      ((⟨db.2, tt, tv, port, protocol, sp1, st1, tags1, meta1, now1,
        now1⟩ : RegRow).id,
        ((db.1 ++ [(⟨db.2, tt, tv, port, protocol, sp1, st1, tags1, meta1,
          now1, now1⟩ : RegRow)]).map (fun r2 =>
          if r2.id = (⟨db.2, tt, tv, port, protocol, sp1, st1, tags1, meta1,
            now1, now1⟩ : RegRow).id
          then { r2 with status := st2, updated_at := now2 } else r2),
          db.2 + 1)) := hc2
  rw [htab]
  have hmapfull : ((db.1 ++ [(⟨db.2, tt, tv, port, protocol, sp1, st1, tags1,
      meta1, now1, now1⟩ : RegRow)]).map (fun r2 =>
      if r2.id = (⟨db.2, tt, tv, port, protocol, sp1, st1, tags1, meta1,
        now1, now1⟩ : RegRow).id
      then { r2 with status := st2, updated_at := now2 } else r2)) =
      db.1 ++ [⟨db.2, tt, tv, port, protocol, sp1, st2, tags1, meta1,
        now1, now2⟩] := by
    rw [List.map_append, hmap st2 now2]
    simp
  refine ⟨rfl, rfl, ?_, ?_, ?_⟩
  · exact hmapfull
  · rw [hmapfull, List.filter_append]
    have h1 : db.1.filter (regTuplePred tt tv port protocol) = [] := by
      rw [List.filter_eq_nil]
      intro r hr
      simp only [regTuplePred, decide_eq_true_eq]
      exact hfresh r hr
    rw [h1]
    simp [regTuplePred, regKey]
  · rw [get_status]
    rw [show ((⟨db.2, tt, tv, port, protocol, sp1, st1, tags1, meta1, now1,
      now1⟩ : RegRow).id,
      ((db.1 ++ [(⟨db.2, tt, tv, port, protocol, sp1, st1, tags1, meta1,
        now1, now1⟩ : RegRow)]).map (fun r2 =>
        if r2.id = (⟨db.2, tt, tv, port, protocol, sp1, st1, tags1, meta1,
          now1, now1⟩ : RegRow).id
        then { r2 with status := st2, updated_at := now2 } else r2),
        db.2 + 1)).2.1 = db.1 ++ [⟨db.2, tt, tv, port, protocol, sp1, st2,
          tags1, meta1, now1, now2⟩] from hmapfull]
    rw [List.find?_append]
    have h1 : db.1.find? (regTuplePred tt tv port protocol) = none := hf1
    rw [h1]
    simp [List.find?, regTuplePred, regKey]

/-- Closed witness for C10: inserting the same tuple twice into the
empty registry yields id 1 twice, one row, and the second status. -/
theorem add_target_upsert_spec_witness :
    (add_target (add_target (([], 1) : RegDB) (.pStr (pys "ip"))
      (.pStr (pys "8.8.8.8")) (some (.pInt 80)) (some (.pStr (pys "tcp")))
      (some (.pStr (pys "nmap"))) [.pStr (pys "web")] (pys "{}")
      (.pStr (pys "new")) 11).2 (.pStr (pys "ip")) (.pStr (pys "8.8.8.8"))
      (some (.pInt 80)) (some (.pStr (pys "tcp"))) none [] (pys "{}")
      (.pStr (pys "scanned")) 12).1 = 1
    ∧ get_status (add_target (add_target (([], 1) : RegDB) (.pStr (pys "ip"))
        (.pStr (pys "8.8.8.8")) (some (.pInt 80)) (some (.pStr (pys "tcp")))
        (some (.pStr (pys "nmap"))) [.pStr (pys "web")] (pys "{}")
        (.pStr (pys "new")) 11).2 (.pStr (pys "ip")) (.pStr (pys "8.8.8.8"))
        (some (.pInt 80)) (some (.pStr (pys "tcp"))) none [] (pys "{}")
        (.pStr (pys "scanned")) 12).2 (.pStr (pys "ip")) (.pStr (pys "8.8.8.8"))
        (some (.pInt 80)) (some (.pStr (pys "tcp"))) =
        some (.pStr (pys "scanned")) := by
  have h := add_target_upsert_spec (([], 1) : RegDB) (.pStr (pys "ip"))
    (.pStr (pys "8.8.8.8")) (some (.pInt 80)) (some (.pStr (pys "tcp")))
    (some (.pStr (pys "nmap"))) [.pStr (pys "web")] (pys "{}")
    (.pStr (pys "new")) 11 none [] (pys "{}") (.pStr (pys "scanned")) 12
    (by intro r hr; cases hr) (by intro r hr; cases hr)
  exact ⟨h.2.1, h.2.2.2.2⟩

end HoneyScan
